import Mathlib

/-!
# Verification of the dirsum manifest tool

Shallow embedding of `src/dirsum.go` (polydecay/dirsum): the manifest
codec (`readFile`, `readFileToMap`, `writeFile`), the checksum type with
its `Verify` method and sort order (`Checksums.Less`), the command bodies
(`updateCommand`, `verifyCommand`/`verifyFile`) and the MD5 hex rendering
of `generateMd5`.

Modelling conventions:
* Go strings are modelled as lists of characters (`Str`); Go compares
  strings byte-wise, which for the UTF-8 inputs handled here coincides
  with the character-wise lexicographic order `ltStr`.
* File-system reads are collaborators: a hasher `Str → Option (List Nat)`
  returns the 16 MD5 digest bytes of the file at a path, or `none` when
  opening/reading fails.  Manifest file contents arrive as a `Str`.
* The functions of Go's `path/filepath` used by the source (`Dir`,
  `IsAbs`, `Join`, `Clean`, `Rel`, `Abs`) are modelled for Unix paths;
  `Abs` takes the working directory as an explicit argument.
* Go's `strings.ToLower` is modelled on ASCII letters.
-/

namespace Dirsum

/-- Go strings, modelled as lists of characters. -/
abbrev Str := List Char

/-- Character list of a Lean string literal (for concrete test inputs). -/
def chars (s : String) : Str := s.data

/-! ## Generic string machinery: substring search, split, replace -/

/-- Leftmost occurrence of `sep` in `l`: `some (a, b)` with `l = a ++ sep ++ b`
and no occurrence of `sep` starting inside `a`; `none` when `sep` does not
occur.  Backbone of the models of `strings.Split` and `strings.Replace`. -/
def breakOn (sep : Str) : Str → Option (Str × Str)
  | [] => none
  | c :: rest =>
      if sep.isPrefixOf (c :: rest) then some ([], (c :: rest).drop sep.length)
      else
        match breakOn sep rest with
        | some (a, b) => some (c :: a, b)
        | none => none

/-- Fuel-driven worker for `goSplit` (each step removes at least one
character, so `l.length` fuel always suffices). -/
def splitOnFuel (sep : Str) : Nat → Str → List Str
  | 0, l => [l]
  | fuel + 1, l =>
      match breakOn sep l with
      | none => [l]
      | some (a, b) => a :: splitOnFuel sep fuel b

/-- Model of Go `strings.Split(l, sep)` for non-empty `sep`: the pieces of
`l` between non-overlapping leftmost occurrences of `sep`. -/
def goSplit (sep : Str) (l : Str) : List Str := splitOnFuel sep l.length l

/-- Fuel-driven worker for `goReplace`. -/
def replaceFuel (pat rep : Str) : Nat → Str → Str
  | 0, l => l
  | fuel + 1, l =>
      match breakOn pat l with
      | none => l
      | some (a, b) => a ++ rep ++ replaceFuel pat rep fuel b

/-- Model of Go `strings.Replace(l, pat, rep, -1)`: replace every
non-overlapping leftmost occurrence of `pat` by `rep`. -/
def goReplace (pat rep : Str) (l : Str) : Str := replaceFuel pat rep l.length l

/-- Does the two-character sequence `x y` occur (adjacent) in `l`?  Used to
reason about occurrences of the two-character separators `" *"` / `"\r\n"`. -/
def hasPair (x y : Char) : Str → Bool
  | a :: b :: t => (a = x && b = y) || hasPair x y (b :: t)
  | _ => false

/-! ## Model of Go `path/filepath` (Unix rules) -/

/-- Split on a single character (`strings.Split` with a one-character
separator); used for the component view of paths. -/
def splitChar (d : Char) : Str → List Str
  | [] => [[]]
  | c :: rest =>
      if c = d then [] :: splitChar d rest
      else
        match splitChar d rest with
        | s :: ss => (c :: s) :: ss
        | [] => [[c]]

/-- Join path components with `/` (Go `strings.Join(comps, "/")`). -/
def joinComps : List Str → Str
  | [] => []
  | [c] => c
  | c :: rest => c ++ '/' :: joinComps rest

/-- Go `filepath.IsAbs` on Unix: the path starts with a slash. -/
def isAbsL : Str → Bool
  | c :: _ => c = '/'
  | [] => false

/-- The `..`-handling of Go `filepath.Clean` on the component stack: pop a
poppable component, keep stacking `..` on a relative path, vanish at the
root of an absolute one. -/
def popStack (rooted : Bool) (c : Str) : List Str → List Str
  | top :: acc' => if top = ['.', '.'] then c :: top :: acc' else acc'
  | [] => if rooted then [] else [c]

/-- The component stack loop of Go `filepath.Clean`: drop empty and `.`
components, let `..` act through `popStack`, push everything else. -/
def cleanCore (rooted : Bool) : List Str → List Str → List Str
  | acc, [] => acc.reverse
  | acc, c :: rest =>
      if c = [] ∨ c = ['.'] then cleanCore rooted acc rest
      else if c = ['.', '.'] then cleanCore rooted (popStack rooted c acc) rest
      else cleanCore rooted (c :: acc) rest

/-- Model of Go `filepath.Clean` for Unix paths. -/
def cleanL (p : Str) : Str :=
  if p = [] then ['.']
  else
    let rooted := isAbsL p
    let comps := cleanCore rooted [] (splitChar '/' p)
    if rooted then '/' :: joinComps comps
    else if comps = [] then ['.'] else joinComps comps

/-- Model of Go `filepath.Join(a, b)`: empty elements are dropped, the rest
joined with a slash, and the result cleaned (`""` when both are empty). -/
def joinPath (a b : Str) : Str :=
  if a = [] && b = [] then []
  else if a = [] then cleanL b
  else if b = [] then cleanL a
  else cleanL (a ++ '/' :: b)

/-- The prefix of `p` up to and including its last slash (empty when `p` has
no slash): `path[:i+1]` of Go `filepath.Dir`. -/
def upToLastSlash (p : Str) : Str := (p.reverse.dropWhile (fun c => c ≠ '/')).reverse

/-- Model of Go `filepath.Dir`: everything before the final path element,
cleaned; `"."` when the path holds no slash. -/
def dirPath (p : Str) : Str := cleanL (upToLastSlash p)

/-- Component list of an already-cleaned path as Go `filepath.Rel` walks it:
the root slash is dropped, and `"."`-as-base contributes no components. -/
def relComps (p : Str) : List Str :=
  let q := if isAbsL p then p.drop 1 else p
  if q = [] then [] else splitChar '/' q

/-- Strip the common leading components of two component lists. -/
def stripCommon : List Str → List Str → List Str × List Str
  | a :: as, b :: bs =>
      if a = b then stripCommon as bs else (a :: as, b :: bs)
  | as, bs => (as, bs)

/-- Model of Go `filepath.Rel(basep, targp)` on Unix: `none` models the
error return (mixed absolute/relative arguments, or a `..` left in the
base after the common prefix). -/
def relPath (basep targp : Str) : Option Str :=
  let base0 := cleanL basep
  let targ := cleanL targp
  if targ = base0 then some ['.']
  else
    let base := if base0 = ['.'] then [] else base0
    if (decide (base ≠ []) && isAbsL base) ≠ isAbsL targ then none
    else
      let rems := stripCommon (relComps base) (relComps targ)
      if rems.1.headD [] = ['.', '.'] then none
      else if rems.1 ≠ [] then
        some (joinComps (List.replicate rems.1.length ['.', '.'] ++ rems.2))
      else some (joinComps rems.2)

/-- Model of Go `filepath.Abs`: already-absolute paths are cleaned, relative
ones joined onto the working directory `cwd`. -/
def absPath (cwd p : Str) : Str := if isAbsL p then cleanL p else joinPath cwd p

/-! ## ASCII lowercasing and hex digits -/

/-- Go `strings.ToLower`, modelled on ASCII letters. -/
def lowerChar (c : Char) : Char :=
  if 'A' ≤ c ∧ c ≤ 'Z' then Char.ofNat (c.toNat + 32) else c

/-- Lowercase a whole string. -/
def lowerL (s : Str) : Str := s.map lowerChar

/-- The character class `[0-9a-fA-F]` of the manifest line pattern. -/
def isHexChar (c : Char) : Bool :=
  ('0' ≤ c && c ≤ '9') || ('a' ≤ c && c ≤ 'f') || ('A' ≤ c && c ≤ 'F')

/-- Lowercase hexadecimal digits only (`0-9a-f`). -/
def isLowerHex (c : Char) : Bool :=
  ('0' ≤ c && c ≤ '9') || ('a' ≤ c && c ≤ 'f')

/-- One lowercase hex digit (`fmt.Sprintf("%x", ·)` digit alphabet). -/
def hexDigitChar (n : Nat) : Char :=
  if n < 10 then Char.ofNat (48 + n) else Char.ofNat (87 + n)

/-- Lowercase hex rendering of a byte sequence: `fmt.Sprintf("%x", bytes)`,
two digits per byte. -/
def hexEncode (bytes : List Nat) : Str :=
  (bytes.map (fun b => [hexDigitChar (b / 16), hexDigitChar (b % 16)])).flatten

/-- Byte-wise string comparison `a < b` of Go. -/
def ltStr : Str → Str → Bool
  | [], [] => false
  | [], _ :: _ => true
  | _ :: _, [] => false
  | a :: as, b :: bs => if a < b then true else if b < a then false else ltStr as bs

/-! ## The Checksum data model (`type Checksum`, `type Checksums`) -/

/-- `type Checksum struct { Hash string; Path string }`. -/
structure Checksum where
  Hash : Str
  Path : Str
deriving DecidableEq, Repr

/-- `Checksums.Less(a, b)` of the source: order by lowercased directory of
the path, then by the lowercased full path. -/
def checksumLess (a b : Checksum) : Bool :=
  let aDir := lowerL (dirPath a.Path)
  let bDir := lowerL (dirPath b.Path)
  if aDir = bDir then ltStr (lowerL a.Path) (lowerL b.Path)
  else ltStr aDir bDir

/-- The non-strict order `sort.Sort` establishes for `Checksums.Less`:
`a` may stay left of `b` exactly when `Less(b, a)` is false. -/
def leC (a b : Checksum) : Prop := checksumLess b a = false

instance : DecidableRel leC := fun a b => by unfold leC; infer_instance

/-- `generateMd5` after stripping the progress display: open and hash the
file (the collaborator `md5` yields the digest bytes, `none` on an
open/read error), then render the digest in lowercase hex. -/
def generateMd5 (md5 : Str → Option (List Nat)) (path : Str) : Option Str :=
  (md5 path).map hexEncode

/-- `Checksum.Verify`: re-hash the file; the pair is Go's `(bool, error)`
return, the second component `true` when an error was returned. -/
def checksumVerify (md5 : Str → Option (List Nat)) (c : Checksum) : Bool × Bool :=
  match generateMd5 md5 c.Path with
  | none => (false, true)
  | some newHash => (c.Hash = newHash, false)

/-! ## The manifest codec (`readFile`, `readFileToMap`, `writeFile`) -/

/-- `r.MatchString(line)` for `^[0-9a-fA-F]{32} \*.*$` on a single line
(the input was split on newlines, so `.` matches every remaining
character): 32 hex characters, a space, a star, anything after. -/
def isValidLine (line : Str) : Bool :=
  match line.drop 32 with
  | c1 :: c2 :: _ => (c1 = ' ' && c2 = '*') && (line.take 32).all isHexChar
  | _ => false

/-- The body of the valid-line branch shared by `readFile` and
`readFileToMap`: `split := strings.Split(line, " *")`, hash `split[0]`,
path `split[1]` resolved against the manifest directory when relative. -/
def readEntry (dir : Str) (line : Str) : Checksum :=
  let split := goSplit [' ', '*'] line
  let hash := split.headD []
  let raw := split.getD 1 []
  let path := if isAbsL raw then raw else joinPath dir raw
  ⟨hash, path⟩

/-- The line view `readFile`/`readFileToMap` iterate: CRLF endings replaced
by LF, then split on LF. -/
def manifestLines (data : Str) : List Str :=
  goSplit ['\n'] (goReplace ['\r', '\n'] ['\n'] data)

/-- `readFile(path)` once `ioutil.ReadFile` has delivered `data`: collect an
entry per valid line (empty and non-matching lines are skipped). -/
def readFileSums (path data : Str) : List Checksum :=
  let dir := dirPath path
  (manifestLines data).foldl
    (fun sums line =>
      if line.length = 0 then sums
      else if isValidLine line then sums ++ [readEntry dir line]
      else sums)
    []

/-- Go map assignment `m[k] = v` on the association-list view of
`map[string]Checksum`: replace the binding of `k` when present, append
otherwise. -/
def mapInsert (m : List (Str × Checksum)) (k : Str) (v : Checksum) :
    List (Str × Checksum) :=
  if m.any (fun kv => kv.1 = k) then
    m.map (fun kv => if kv.1 = k then (k, v) else kv)
  else m ++ [(k, v)]

/-- Go map read `m[k]`. -/
def mapLookup (m : List (Str × Checksum)) (k : Str) : Option Checksum :=
  (m.find? (fun kv => kv.1 = k)).map (·.2)

/-- `readFileToMap(path)` once the file has delivered `data`: same lines as
`readFile`, keyed by the resolved path (`checksumMap[split[1]] = ...`). -/
def readFileToMapM (path data : Str) : List (Str × Checksum) :=
  let dir := dirPath path
  (manifestLines data).foldl
    (fun m line =>
      if line.length = 0 then m
      else if isValidLine line then
        let c := readEntry dir line
        mapInsert m c.Path c
      else m)
    []

/-- The path field `writeFile` renders: the entry path made relative to
the manifest directory, or absolute (`filepath.Abs`) when `filepath.Rel`
fails. -/
def relOrAbs (cwd dir p : Str) : Str :=
  match relPath dir p with
  | some r => r
  | none => absPath cwd p

/-- One output line of `writeFile` before its newline:
`fmt.Sprintf("%v *%v", hash, relPath)`. -/
def entryLine (cwd dir : Str) (c : Checksum) : Str :=
  c.Hash ++ ' ' :: '*' :: relOrAbs cwd dir c.Path

/-- `writeFile(sums, path)`: sort, render a line per entry, concatenate.
Go's `sort.Sort` is an unstable comparison sort for `Checksums.Less`;
it is modelled by insertion sort on `leC` (for two-element slices Go
performs exactly the one `Less(1, 0)` comparison-and-swap that insertion
sort reproduces).  `cwd` feeds the `filepath.Abs` fallback. -/
def writeFileBytes (cwd : Str) (sums : List Checksum) (path : Str) : Str :=
  let dir := dirPath path
  (List.insertionSort leC sums).foldl
    (fun out c => out ++ entryLine cwd dir c ++ ['\n'])
    []

/-! ## The verify command (`verifyFile`, `verifyCommand`) -/

/-- One line of `verifyFile`'s output, keeping only what identifies it:
the red `ER:` manifest header, the per-entry `Error:`/`Invalid:` lines,
the green `OK:` manifest line, and the `Error:` line of a failed
manifest read. -/
inductive ReportLine where
  | er (path : Str)
  | errorEntry (path : Str)
  | invalid (path : Str)
  | readError
  | okManifest (path : Str)
deriving DecidableEq, Repr

/-- The loop body of `verifyFile`: state is `(hasErrors, output so far)`. -/
def verifyStep (md5 : Str → Option (List Nat)) (path : Str)
    (st : Bool × List ReportLine) (c : Checksum) : Bool × List ReportLine :=
  let v := checksumVerify md5 c
  if !v.1 then
    let out := if !st.1 then st.2 ++ [ReportLine.er path] else st.2
    let out :=
      if v.2 then out ++ [ReportLine.errorEntry c.Path]
      else out ++ [ReportLine.invalid c.Path]
    (true, out)
  else st

/-- `verifyFile(path)` once the manifest has delivered `data`: verify each
entry, emitting the `ER:` header before the first failing entry and the
`OK:` line when none failed. -/
def verifyFileReport (md5 : Str → Option (List Nat)) (path data : Str) :
    List ReportLine :=
  let sums := readFileSums path data
  let st := sums.foldl (verifyStep md5 path) (false, [])
  if !st.1 then st.2 ++ [ReportLine.okManifest path] else st.2

/-- `verifyCommand` on a single manifest file: the `--basic` flag is
declared in the CLI but `verifyCommand` never reads it (mirroring the
source, the result ignores `basic`); `fileData` is `none` when `os.Stat`
fails, which is the only `os.Exit(1)` of the command — otherwise the
action returns `nil`, so the process exit status is 0. -/
def verifyCommandFile (basic : Bool) (md5 : Str → Option (List Nat))
    (path : Str) (fileData : Option Str) : List ReportLine × Nat :=
  match fileData with
  | none => ([], 1)
  | some data => (verifyFileReport md5 path data, 0)

/-- `verifyCommand` on a directory argument: `filepath.Walk` feeds every
`.md5` file to `verifyFile`; the walk result is discarded and the action
returns `nil`, so the exit status is 0. -/
def verifyCommandDir (basic : Bool) (md5 : Str → Option (List Nat))
    (manifests : List (Str × Str)) : List ReportLine × Nat :=
  (manifests.foldl
      (fun acc m => acc ++ verifyFileReport md5 m.1 m.2)
      [],
    0)

/-! ## The update command (`updateCommand`) -/

/-- The reconciliation core of `updateCommand`, instrumented with the list
of paths handed to `generateMd5`: first the `--delete` pass removes target
entries whose path is not among the scanned source paths, then every
source path not yet a key is hashed and inserted; `none` models the
`os.Exit(1)` taken when `generateMd5` fails.  The map component mirrors
the source; the second component only records which paths were hashed. -/
def updateStep (md5 : Str → Option (List Nat))
    (acc : Option (List (Str × Checksum) × List Str)) (k : Str) :
    Option (List (Str × Checksum) × List Str) :=
  match acc with
  | none => none
  | some (m, hashed) =>
      if m.any (fun kv => kv.1 = k) then some (m, hashed)
      else
        match generateMd5 md5 k with
        | none => none
        | some h => some (mapInsert m k ⟨h, k⟩, hashed ++ [k])

/-- See `updateStep`: the `--delete` pass then the insert-new fold. -/
def updateMaps (md5 : Str → Option (List Nat)) (del : Bool)
    (src : List Str) (tgt : List (Str × Checksum)) :
    Option (List (Str × Checksum) × List Str) :=
  let tgt1 := if del then tgt.filter (fun kv => src.contains kv.1) else tgt
  src.foldl (updateStep md5) (some (tgt1, []))

/-- `updateCommand` after the source walk produced `src` and the target
manifest delivered `data`: reconcile, then write the values of the map
through `writeFile`; `none` models `os.Exit(1)` on a hashing error. -/
def updateCommandModel (md5 : Str → Option (List Nat)) (cwd : Str)
    (del : Bool) (src : List Str) (target data : Str) : Option Str :=
  match updateMaps md5 del src (readFileToMapM target data) with
  | none => none
  | some (m, _) => some (writeFileBytes cwd (m.map (·.2)) target)

/-! ## Spec-side classification (for stating the verify claims) -/

/-- Entry classification as §4.3 of the spec words it. -/
inductive VStatus where
  | ok
  | mismatched
  | unreadable
deriving DecidableEq, Repr

/-- Classify one manifest entry against the hasher: `unreadable` when the
file cannot be opened/read, `mismatched` when the fresh hash differs from
the recorded one, `ok` otherwise. -/
def classifyEntry (md5 : Str → Option (List Nat)) (c : Checksum) : VStatus :=
  match md5 c.Path with
  | none => VStatus.unreadable
  | some bytes => if c.Hash = hexEncode bytes then VStatus.ok else VStatus.mismatched

/-- The report line §4.3 prescribes for a non-OK entry. -/
def nonOkLine (md5 : Str → Option (List Nat)) (c : Checksum) : Option ReportLine :=
  match classifyEntry md5 c with
  | VStatus.ok => none
  | VStatus.unreadable => some (ReportLine.errorEntry c.Path)
  | VStatus.mismatched => some (ReportLine.invalid c.Path)

/-! ## Concrete fixtures for the evaluated statements -/

/-- A hasher for tests: the file `f` exists and reads as sixteen zero
bytes (digest `000…0`); every other path fails to open. -/
def mdZero : Str → Option (List Nat) :=
  fun p => if p = chars "f" then some (List.replicate 16 0) else none

/-- Manifest line recording hash `aaa…a` for file `f` (differs from `f`'s
actual digest `000…0`). -/
def lineStale : Str := chars "aaaaaaaaaaaaaaaaaaaaaaaaaaaaaaaa *f"

/-- Manifest line recording `f`'s actual digest. -/
def lineFresh : Str := chars "00000000000000000000000000000000 *f"

/-- A valid manifest line whose path field contains a second `" *"`. -/
def lineStarPath : Str := chars "0123456789abcdef0123456789abcdef *a *b"

/-- An entry whose (absolute, clean) path contains `" *"`. -/
def entryStarPath : Checksum :=
  ⟨chars "00000000000000000000000000000000", chars "/d/a *b"⟩

/-- Two entries with distinct paths that agree after lowercasing. -/
def entryUpperA : Checksum :=
  ⟨chars "00000000000000000000000000000000", chars "/d/A"⟩

/-- See `entryUpperA`. -/
def entryLowerA : Checksum :=
  ⟨chars "11111111111111111111111111111111", chars "/d/a"⟩

/-- A canonical path component as Go `filepath.Clean` leaves it on an
absolute path: non-empty, holding no separator, and neither `.` nor `..`.
Used to state the round-trip theorem's hypotheses about cleaned paths. -/
def plainComp (comp : Str) : Prop :=
  comp ≠ [] ∧ '/' ∉ comp ∧ comp ≠ ['.'] ∧ comp ≠ ['.', '.']

instance : DecidablePred plainComp := fun comp => by unfold plainComp; infer_instance

/-- The sort key of `Checksums.Less`: lowercased directory, then
lowercased full path. -/
def keyOf (c : Checksum) : Str × Str := (lowerL (dirPath c.Path), lowerL c.Path)

/-- `Checksums.Less` seen on sort keys. -/
def pLess (p q : Str × Str) : Bool :=
  if p.1 = q.1 then ltStr p.2 q.2 else ltStr p.1 q.1

/-- Reflexive closure of `checksumLess`; antisymmetric, which is what the
uniqueness of the sorted permutation needs. -/
def ordC (a b : Checksum) : Prop := checksumLess a b = true ∨ a = b

/-- The per-line contribution of `readFile`: an entry for a non-empty
valid line, nothing otherwise (the skip of blank and malformed lines). -/
def parsedLine (path line : Str) : Option Checksum :=
  if line.length = 0 then none
  else if isValidLine line then some (readEntry (dirPath path) line)
  else none

/-- The portion of a string before its first occurrence of `" *"` (the
whole string when there is none): the recorded-path field the amended C6
describes, matching what `strings.Split(line, " *")[1]` keeps of the
remainder of a valid line. -/
def upToStar (l : Str) : Str :=
  match breakOn [' ', '*'] l with
  | none => l
  | some (a, _) => a

/-- An entry whose lowercased path differs from `entryUpperA`'s. -/
def entryB : Checksum :=
  ⟨chars "22222222222222222222222222222222", chars "/d/b"⟩

/-- A target map holding a stale hash for `f`. -/
def tgtStale : List (Str × Checksum) :=
  [(chars "f", ⟨chars "aaaaaaaaaaaaaaaaaaaaaaaaaaaaaaaa", chars "f"⟩)]

/-- A target map holding `f` (stale hash) and `g`. -/
def tgtTwo : List (Str × Checksum) :=
  [(chars "f", ⟨chars "aaaaaaaaaaaaaaaaaaaaaaaaaaaaaaaa", chars "f"⟩),
   (chars "g", ⟨chars "22222222222222222222222222222222", chars "g"⟩)]

end Dirsum

namespace Dirsum

/-! ## Association-list lemmas for the Go map model -/

theorem mapLookup_nil (k : Str) : mapLookup [] k = none := rfl

theorem mapLookup_cons (kv : Str × Checksum) (m : List (Str × Checksum)) (k : Str) :
    mapLookup (kv :: m) k = if kv.1 = k then some kv.2 else mapLookup m k := by
  by_cases h : kv.1 = k
  · simp [mapLookup, List.find?, h]
  · simp [mapLookup, List.find?, h]

theorem mapLookup_replace_of_mem (m : List (Str × Checksum)) (k : Str) (v : Checksum)
    (h : m.any (fun kv => kv.1 = k)) :
    mapLookup (m.map (fun kv => if kv.1 = k then (k, v) else kv)) k = some v := by
  induction m with
  | nil => simp at h
  | cons kv rest ih =>
      by_cases hk : kv.1 = k
      · simp [hk, mapLookup_cons]
      · simp only [List.any_cons, Bool.or_eq_true, decide_eq_true_eq] at h
        rcases h with h | h
        · exact absurd h hk
        · simp [hk, mapLookup_cons, ih h]

theorem mapLookup_replace_of_ne (m : List (Str × Checksum)) (k : Str) (v : Checksum)
    (k' : Str) (h : k' ≠ k) :
    mapLookup (m.map (fun kv => if kv.1 = k then (k, v) else kv)) k' = mapLookup m k' := by
  induction m with
  | nil => rfl
  | cons kv rest ih =>
      by_cases hk : kv.1 = k
      · have : k ≠ k' := fun e => h e.symm
        simp [hk, mapLookup_cons, this, ih]
      · simp [hk, mapLookup_cons, ih]

theorem mapLookup_append_single (m : List (Str × Checksum)) (k : Str) (v : Checksum)
    (k' : Str) :
    mapLookup (m ++ [(k, v)]) k' =
      match mapLookup m k' with
      | some w => some w
      | none => if k = k' then some v else none := by
  induction m with
  | nil => simp [mapLookup_cons, mapLookup_nil]
  | cons kv rest ih =>
      by_cases hk : kv.1 = k'
      · simp [List.cons_append, mapLookup_cons, hk]
      · simp [List.cons_append, mapLookup_cons, hk, ih]

theorem mapLookup_none_of_not_any (m : List (Str × Checksum)) (k : Str)
    (h : m.any (fun kv => kv.1 = k) = false) : mapLookup m k = none := by
  induction m with
  | nil => rfl
  | cons kv rest ih =>
      simp only [List.any_cons, Bool.or_eq_false_iff, decide_eq_false_iff_not] at h
      simp [mapLookup_cons, h.1, ih h.2]

theorem mapLookup_some_of_any (m : List (Str × Checksum)) (k : Str)
    (h : m.any (fun kv => kv.1 = k) = true) : ∃ v, mapLookup m k = some v := by
  induction m with
  | nil => simp at h
  | cons kv rest ih =>
      by_cases hk : kv.1 = k
      · exact ⟨kv.2, by simp [mapLookup_cons, hk]⟩
      · simp only [List.any_cons, Bool.or_eq_true, decide_eq_true_eq] at h
        rcases h with h | h
        · exact absurd h hk
        · rcases ih h with ⟨v, hv⟩
          exact ⟨v, by simp [mapLookup_cons, hk, hv]⟩

theorem mapLookup_mapInsert (m : List (Str × Checksum)) (k : Str) (v : Checksum)
    (k' : Str) :
    mapLookup (mapInsert m k v) k' = if k' = k then some v else mapLookup m k' := by
  unfold mapInsert
  by_cases hany : m.any (fun kv => kv.1 = k)
  · simp only [hany, if_true]
    by_cases h' : k' = k
    · subst h'
      simp [mapLookup_replace_of_mem m k' v hany]
    · simp [h', mapLookup_replace_of_ne m k v k' h']
  · simp only [Bool.not_eq_true] at hany
    simp only [hany, Bool.false_eq_true, if_false]
    rw [mapLookup_append_single]
    by_cases h' : k' = k
    · subst h'
      simp [mapLookup_none_of_not_any m k' hany]
    · have : k ≠ k' := fun e => h' e.symm
      cases hm : mapLookup m k' <;> simp [h', this, hm]

theorem mapLookup_filter_mem (tgt : List (Str × Checksum)) (src : List Str)
    (k : Str) :
    mapLookup (tgt.filter (fun kv => decide (kv.1 ∈ src))) k =
      if k ∈ src then mapLookup tgt k else none := by
  induction tgt with
  | nil => simp [mapLookup_nil]
  | cons kv rest ih =>
      rw [List.filter_cons]
      by_cases hmem : kv.1 ∈ src
      · rw [if_pos (by simpa using hmem), mapLookup_cons]
        by_cases hk : kv.1 = k
        · subst hk
          simp [mapLookup_cons, hmem]
        · simp [mapLookup_cons, hk, ih]
      · rw [if_neg (by simpa using hmem), ih, mapLookup_cons]
        by_cases hk : kv.1 = k
        · subst hk
          simp [hmem]
        · simp [hk]

theorem mapLookup_filter_contains (tgt : List (Str × Checksum)) (src : List Str)
    (k : Str) :
    mapLookup (tgt.filter (fun kv => src.contains kv.1)) k =
      if k ∈ src then mapLookup tgt k else none := by
  have hf : (fun kv : Str × Checksum => src.contains kv.1) =
      fun kv : Str × Checksum => decide (kv.1 ∈ src) :=
    funext fun kv => by simp [List.elem_iff]
  rw [hf, mapLookup_filter_mem]

/-! ## The update fold characterization -/

theorem updateFold_none (md5 : Str → Option (List Nat)) (src : List Str) :
    src.foldl (updateStep md5) none = none := by
  induction src with
  | nil => rfl
  | cons k rest ih => simpa [updateStep] using ih

theorem updateFold_char (md5 : Str → Option (List Nat)) :
    ∀ (src : List Str) (m0 : List (Str × Checksum)) (h0 : List Str)
      (m : List (Str × Checksum)) (h : List Str),
      src.foldl (updateStep md5) (some (m0, h0)) = some (m, h) →
      (∀ k, mapLookup m k =
        if k ∈ src ∧ mapLookup m0 k = none then
          (md5 k).map (fun bytes => ⟨hexEncode bytes, k⟩)
        else mapLookup m0 k) ∧
      (∀ k, k ∈ h ↔ k ∈ h0 ∨ (k ∈ src ∧ mapLookup m0 k = none)) := by
  intro src
  induction src with
  | nil =>
      intro m0 h0 m h heq
      simp only [List.foldl_nil, Option.some.injEq, Prod.mk.injEq] at heq
      obtain ⟨rfl, rfl⟩ := heq
      constructor
      · intro k
        simp
      · intro k
        simp
  | cons k' rest ih =>
      intro m0 h0 m h heq
      rw [List.foldl_cons] at heq
      by_cases hany : m0.any (fun kv => kv.1 = k') = true
      · rw [show updateStep md5 (some (m0, h0)) k' = some (m0, h0) by
          simp [updateStep, hany]] at heq
        obtain ⟨hv, hh⟩ := ih m0 h0 m h heq
        obtain ⟨w, hw⟩ := mapLookup_some_of_any m0 k' hany
        constructor
        · intro k
          rw [hv k]
          by_cases hk : k = k'
          · subst hk
            simp [hw]
          · simp [List.mem_cons, hk]
        · intro k
          rw [hh k]
          by_cases hk : k = k'
          · subst hk
            simp [hw]
          · simp [List.mem_cons, hk]
      · simp only [Bool.not_eq_true] at hany
        cases hmd : generateMd5 md5 k' with
        | none =>
            rw [show updateStep md5 (some (m0, h0)) k' = none by
              simp [updateStep, hany, hmd]] at heq
            rw [updateFold_none] at heq
            exact absurd heq (by simp)
        | some hh' =>
            rw [show updateStep md5 (some (m0, h0)) k' =
                some (mapInsert m0 k' ⟨hh', k'⟩, h0 ++ [k']) by
              simp [updateStep, hany, hmd]] at heq
            obtain ⟨hv, hh⟩ := ih _ _ m h heq
            have hm0k' : mapLookup m0 k' = none := mapLookup_none_of_not_any m0 k' hany
            constructor
            · intro k
              rw [hv k]
              by_cases hk : k = k'
              · subst hk
                have h1 : mapLookup (mapInsert m0 k ⟨hh', k⟩) k = some ⟨hh', k⟩ := by
                  rw [mapLookup_mapInsert]
                  simp
                rw [h1, if_neg (by simp), if_pos ⟨List.mem_cons_self k rest, hm0k'⟩]
                cases hb : md5 k with
                | none => simp [generateMd5, hb] at hmd
                | some bytes =>
                    simp only [generateMd5, hb, Option.map_some'] at hmd
                    have he : hexEncode bytes = hh' := by injection hmd
                    simp [hb, he]
              · rw [mapLookup_mapInsert, if_neg hk]
                simp [List.mem_cons, hk]
            · intro k
              rw [hh k, mapLookup_mapInsert]
              by_cases hk : k = k'
              · subst hk
                simp [hm0k']
              · simp [List.mem_cons, hk]

/-! ## Lemmas on substring search, split and replace -/

theorem breakOn_cons (sep : Str) (c : Char) (rest : Str) :
    breakOn sep (c :: rest) =
      if sep.isPrefixOf (c :: rest) then some ([], (c :: rest).drop sep.length)
      else
        match breakOn sep rest with
        | some (a, b) => some (c :: a, b)
        | none => none := rfl

theorem splitOnFuel_succ (sep : Str) (fuel : Nat) (l : Str) :
    splitOnFuel sep (fuel + 1) l =
      match breakOn sep l with
      | none => [l]
      | some (a, b) => a :: splitOnFuel sep fuel b := rfl

theorem splitOnFuel_succ_none (sep : Str) (fuel : Nat) (l : Str)
    (h : breakOn sep l = none) : splitOnFuel sep (fuel + 1) l = [l] := by
  rw [splitOnFuel_succ, h]

theorem splitOnFuel_succ_some (sep : Str) (fuel : Nat) (l a b : Str)
    (h : breakOn sep l = some (a, b)) :
    splitOnFuel sep (fuel + 1) l = a :: splitOnFuel sep fuel b := by
  rw [splitOnFuel_succ, h]

theorem breakOn_decomp (sep : Str) :
    ∀ (l a b : Str), breakOn sep l = some (a, b) → l = a ++ sep ++ b := by
  intro l
  induction l with
  | nil => intro a b h; simp [breakOn] at h
  | cons c rest ih =>
      intro a b h
      rw [breakOn_cons] at h
      by_cases hp : sep.isPrefixOf (c :: rest)
      · rw [if_pos hp] at h
        have h2 := Option.some.inj h
        have ha : ([] : Str) = a := congrArg Prod.fst h2
        have hb2 : (c :: rest).drop sep.length = b := congrArg Prod.snd h2
        subst ha
        subst hb2
        obtain ⟨t, ht⟩ := List.isPrefixOf_iff_prefix.mp hp
        rw [List.nil_append, ← ht, List.drop_left]
      · rw [if_neg hp] at h
        cases hb : breakOn sep rest with
        | none => rw [hb] at h; simp at h
        | some ab =>
            rw [hb] at h
            obtain ⟨a1, b1⟩ := ab
            simp only [Option.some.injEq, Prod.mk.injEq] at h
            obtain ⟨ha, hb1⟩ := h
            subst ha
            subst hb1
            rw [ih a1 b1 hb]
            simp

theorem breakOn_some_length (sep : Str) (hsep : sep ≠ []) (l a b : Str)
    (h : breakOn sep l = some (a, b)) : b.length < l.length := by
  have hd := breakOn_decomp sep l a b h
  subst hd
  have : 0 < sep.length := List.length_pos.mpr hsep
  simp only [List.append_assoc, List.length_append]
  omega

theorem splitOnFuel_of_le (sep : Str) (hsep : sep ≠ []) :
    ∀ (fuel : Nat) (l : Str), l.length ≤ fuel →
      splitOnFuel sep fuel l = goSplit sep l := by
  intro fuel
  induction fuel using Nat.strong_induction_on with
  | _ fuel ih =>
      intro l hl
      match fuel with
      | 0 =>
          have : l = [] := List.length_eq_zero.mp (Nat.le_zero.mp hl)
          subst this
          rfl
      | fuel1 + 1 =>
          cases hb : breakOn sep l with
          | none =>
              unfold goSplit
              cases hn : l.length with
              | zero =>
                  have : l = [] := List.length_eq_zero.mp hn
                  subst this
                  rfl
              | succ n =>
                  rw [splitOnFuel_succ_none sep fuel1 l hb,
                    splitOnFuel_succ_none sep n l hb]
          | some ab =>
              obtain ⟨a, b⟩ := ab
              have hblt : b.length < l.length := breakOn_some_length sep hsep l a b hb
              have hl0 : l ≠ [] := by
                intro h
                subst h
                simp [breakOn] at hb
              obtain ⟨n, hn⟩ : ∃ n, l.length = n + 1 :=
                Nat.exists_eq_succ_of_ne_zero (by simpa using hl0)
              rw [splitOnFuel_succ_some sep fuel1 l a b hb]
              unfold goSplit
              rw [hn, splitOnFuel_succ_some sep n l a b hb]
              have h1 : splitOnFuel sep fuel1 b = goSplit sep b :=
                ih fuel1 (Nat.lt_succ_self fuel1) b (by omega)
              have h2 : splitOnFuel sep n b = goSplit sep b :=
                ih n (by omega) b (by omega)
              rw [h1, h2]

theorem goSplit_of_breakOn_some (sep : Str) (hsep : sep ≠ []) (l a b : Str)
    (h : breakOn sep l = some (a, b)) : goSplit sep l = a :: goSplit sep b := by
  have hl0 : l ≠ [] := by
    intro he
    subst he
    simp [breakOn] at h
  obtain ⟨n, hn⟩ : ∃ n, l.length = n + 1 :=
    Nat.exists_eq_succ_of_ne_zero (by simpa using hl0)
  have hblt : b.length < l.length := breakOn_some_length sep hsep l a b h
  unfold goSplit
  rw [hn, splitOnFuel_succ_some sep n l a b h,
    splitOnFuel_of_le sep hsep n b (by omega),
    splitOnFuel_of_le sep hsep b.length b (Nat.le_refl _)]

theorem goSplit_of_breakOn_none (sep : Str) (l : Str)
    (h : breakOn sep l = none) : goSplit sep l = [l] := by
  unfold goSplit
  cases hn : l.length with
  | zero => rfl
  | succ n => rw [splitOnFuel_succ_none sep n l h]

theorem breakOn_append (s0 : Char) (s1 : Str) :
    ∀ (a b : Str), (∀ c ∈ a, c ≠ s0) →
      breakOn (s0 :: s1) (a ++ (s0 :: s1) ++ b) = some (a, b) := by
  intro a
  induction a with
  | nil =>
      intro b _
      simp only [List.nil_append, List.cons_append]
      rw [breakOn_cons]
      rw [if_pos (by
        apply List.isPrefixOf_iff_prefix.mpr
        exact ⟨b, by simp⟩)]
      have : (s0 :: (s1 ++ b)).drop (s0 :: s1).length = b := by
        have := List.drop_left (s0 :: s1) b
        simpa using this
      rw [this]
  | cons x a1 ih =>
      intro b hx
      have hxs : x ≠ s0 := hx x (List.mem_cons_self x a1)
      have hre : (x :: a1) ++ (s0 :: s1) ++ b = x :: (a1 ++ (s0 :: s1) ++ b) := by
        simp
      rw [hre, breakOn_cons]
      rw [if_neg (by
        intro hp
        have hsx : s0 = x := by
          obtain ⟨t, ht⟩ := List.isPrefixOf_iff_prefix.mp hp
          simpa using congrArg List.head? ht
        exact hxs hsx.symm)]
      rw [ih b (fun c hc => hx c (List.mem_cons_of_mem x hc))]

theorem breakOn_none_of_notMem (s0 : Char) (s1 : Str) :
    ∀ (l : Str), s0 ∉ l → breakOn (s0 :: s1) l = none := by
  intro l
  induction l with
  | nil => intro _; rfl
  | cons x rest ih =>
      intro hmem
      rw [breakOn_cons]
      rw [if_neg (by
        intro hp
        have hsx : s0 = x := by
          obtain ⟨t, ht⟩ := List.isPrefixOf_iff_prefix.mp hp
          simpa using congrArg List.head? ht
        exact hmem (hsx ▸ List.mem_cons_self x rest))]
      rw [ih (fun h => hmem (List.mem_cons_of_mem x h))]

theorem goReplace_eq_self (p0 : Char) (p1 rep : Str) (l : Str)
    (h : p0 ∉ l) : goReplace (p0 :: p1) rep l = l := by
  unfold goReplace
  cases hn : l.length with
  | zero => rfl
  | succ n =>
      unfold replaceFuel
      rw [breakOn_none_of_notMem p0 p1 l h]

/-! ## Parsing a single rendered line -/

theorem isHexChar_ne_space (c : Char) (h : isHexChar c = true) : c ≠ ' ' := by
  intro he
  subst he
  exact absurd h (by decide)

theorem isHexChar_ne_newline (c : Char) (h : isHexChar c = true) : c ≠ '\n' := by
  intro he
  subst he
  exact absurd h (by decide)

theorem isValidLine_decomp (line : Str) :
    isValidLine line = true ↔
      ∃ h rest, line = h ++ ' ' :: '*' :: rest ∧ h.length = 32 ∧
        ∀ c ∈ h, isHexChar c = true := by
  constructor
  · intro hv
    unfold isValidLine at hv
    cases hd : line.drop 32 with
    | nil => rw [hd] at hv; simp at hv
    | cons c1 t =>
        cases ht : t with
        | nil => rw [hd, ht] at hv; simp at hv
        | cons c2 rest =>
            rw [hd, ht] at hv
            simp only [Bool.and_eq_true, decide_eq_true_eq] at hv
            obtain ⟨⟨hc1, hc2⟩, hall⟩ := hv
            subst hc1
            subst hc2
            refine ⟨line.take 32, rest, ?_, ?_, ?_⟩
            · rw [← ht, ← hd, List.take_append_drop]
            · have h2 : (line.drop 32).length = line.length - 32 := by simp
              rw [hd, ht] at h2
              simp only [List.length_cons] at h2
              have := List.length_take 32 line
              omega
            · intro c hc
              exact List.all_eq_true.mp hall c hc
  · rintro ⟨h, rest, rfl, hlen, hhex⟩
    unfold isValidLine
    rw [show (h ++ ' ' :: '*' :: rest).drop 32 = ' ' :: '*' :: rest by
      rw [← hlen, List.drop_left]]
    rw [show (h ++ ' ' :: '*' :: rest).take 32 = h by
      rw [← hlen, List.take_left]]
    simp [List.all_eq_true.mpr hhex]

theorem goSplit_valid_line (h rest : Str) (hhex : ∀ c ∈ h, isHexChar c = true) :
    goSplit [' ', '*'] (h ++ ' ' :: '*' :: rest) =
      h :: goSplit [' ', '*'] rest := by
  have hb : breakOn [' ', '*'] (h ++ [' ', '*'] ++ rest) = some (h, rest) :=
    breakOn_append ' ' ['*'] h rest
      (fun c hc => isHexChar_ne_space c (hhex c hc))
  have : h ++ ' ' :: '*' :: rest = h ++ [' ', '*'] ++ rest := by simp
  rw [this]
  exact goSplit_of_breakOn_some [' ', '*'] (by simp) _ h rest hb

theorem goSplit_head_upToStar (l : Str) :
    (goSplit [' ', '*'] l).getD 0 [] = upToStar l := by
  cases hb : breakOn [' ', '*'] l with
  | none =>
      rw [goSplit_of_breakOn_none _ _ hb]
      simp [upToStar, hb]
  | some ab =>
      obtain ⟨a, b⟩ := ab
      rw [goSplit_of_breakOn_some _ (by simp) _ a b hb]
      simp [upToStar, hb]

theorem readEntry_rendered (dir h rest : Str) (hlen : h.length = 32)
    (hhex : ∀ c ∈ h, isHexChar c = true) :
    readEntry dir (h ++ ' ' :: '*' :: rest) =
      ⟨h, if isAbsL (upToStar rest) then upToStar rest
          else joinPath dir (upToStar rest)⟩ := by
  simp only [readEntry, goSplit_valid_line h rest hhex, List.headD_cons,
    List.getD_cons_succ]
  rw [goSplit_head_upToStar]

/-! ## The parse folds as filterMaps -/

theorem foldl_filterMap_general {A B M : Type} (g : A → Option B)
    (step : M → B → M) (f : M → A → M)
    (hf : ∀ m a, f m a =
      match g a with
      | some b => step m b
      | none => m)
    (l : List A) (m : M) :
    l.foldl f m = (l.filterMap g).foldl step m := by
  induction l generalizing m with
  | nil => rfl
  | cons a rest ih =>
      rw [List.foldl_cons, List.filterMap_cons, hf]
      cases hg : g a with
      | none => simp only [hg]; exact ih _
      | some b => simp only [hg, List.foldl_cons]; exact ih _

theorem foldl_append_singleton {B : Type} :
    ∀ (l : List B) (acc : List B),
      l.foldl (fun s c => s ++ [c]) acc = acc ++ l := by
  intro l
  induction l with
  | nil => intro acc; simp
  | cons c rest ih =>
      intro acc
      rw [List.foldl_cons, ih]
      simp

theorem readFileSums_eq (path data : Str) :
    readFileSums path data = (manifestLines data).filterMap (parsedLine path) := by
  simp only [readFileSums]
  rw [foldl_filterMap_general (parsedLine path) (fun s c => s ++ [c])
      (fun sums line =>
        if line.length = 0 then sums
        else if isValidLine line then sums ++ [readEntry (dirPath path) line]
        else sums)
      (fun m a => by
        unfold parsedLine
        by_cases h0 : a.length = 0
        · simp [h0]
        · by_cases hv : isValidLine a <;> simp [h0, hv])]
  rw [foldl_append_singleton]
  simp

theorem readFileToMapM_eq (path data : Str) :
    readFileToMapM path data =
      (readFileSums path data).foldl (fun m c => mapInsert m c.Path c) [] := by
  rw [readFileSums_eq]
  simp only [readFileToMapM]
  rw [foldl_filterMap_general (parsedLine path) (fun m (c : Checksum) => mapInsert m c.Path c)
      (fun m line =>
        if line.length = 0 then m
        else if isValidLine line then
          mapInsert m (readEntry (dirPath path) line).Path (readEntry (dirPath path) line)
        else m)
      (fun m a => by
        unfold parsedLine
        by_cases h0 : a.length = 0
        · simp [h0]
        · by_cases hv : isValidLine a <;> simp [h0, hv])]

/-! ## Last-occurrence-wins lookup of the parse map -/

theorem getLast?_cons_match {B : Type} (a : B) (l : List B) :
    (a :: l).getLast? =
      match l.getLast? with
      | some x => some x
      | none => some a := by
  cases l with
  | nil => rfl
  | cons b t =>
      cases hl : (b :: t).getLast? with
      | none =>
          exact absurd hl (by simp [List.getLast?_eq_none_iff])
      | some x => rw [List.getLast?_cons_cons, hl]

theorem mapLookup_foldInsert :
    ∀ (entries : List Checksum) (m0 : List (Str × Checksum)) (k : Str),
      mapLookup (entries.foldl (fun m c => mapInsert m c.Path c) m0) k =
        match (entries.filter (fun c => c.Path = k)).getLast? with
        | some c => some c
        | none => mapLookup m0 k := by
  intro entries
  induction entries with
  | nil => intro m0 k; simp
  | cons c rest ih =>
      intro m0 k
      rw [List.foldl_cons, List.filter_cons]
      by_cases hc : c.Path = k
      · rw [if_pos (by simpa using hc), getLast?_cons_match]
        rw [ih]
        cases hl : (rest.filter (fun c => decide (c.Path = k))).getLast? with
        | none =>
            rw [mapLookup_mapInsert]
            simp [hc.symm]
        | some d => rfl
      · rw [if_neg (by simpa using hc), ih]
        cases hl : (rest.filter (fun c => decide (c.Path = k))).getLast? with
        | none =>
            rw [mapLookup_mapInsert, if_neg (fun h => hc h.symm)]
        | some d => rfl

theorem mapInsert_mem (m : List (Str × Checksum)) (k : Str) (v : Checksum)
    (kv : Str × Checksum) (h : kv ∈ mapInsert m k v) : kv ∈ m ∨ kv = (k, v) := by
  unfold mapInsert at h
  by_cases hany : m.any (fun kv => kv.1 = k)
  · rw [if_pos hany] at h
    obtain ⟨kv0, hkv0, hf⟩ := List.mem_map.mp h
    by_cases hk : kv0.1 = k
    · right
      rw [if_pos hk] at hf
      exact hf.symm
    · left
      rw [if_neg hk] at hf
      exact hf ▸ hkv0
  · simp only [Bool.not_eq_true] at hany
    rw [if_neg (by simp [hany])] at h
    rcases List.mem_append.mp h with h | h
    · exact Or.inl h
    · exact Or.inr (by simpa using h)

theorem foldInsert_keyed :
    ∀ (entries : List Checksum) (m0 : List (Str × Checksum)),
      (∀ kv ∈ m0, kv.1 = kv.2.Path) →
      ∀ kv ∈ entries.foldl (fun m c => mapInsert m c.Path c) m0, kv.1 = kv.2.Path := by
  intro entries
  induction entries with
  | nil => intro m0 h0 kv hkv; exact h0 kv hkv
  | cons c rest ih =>
      intro m0 h0 kv hkv
      rw [List.foldl_cons] at hkv
      refine ih (mapInsert m0 c.Path c) ?_ kv hkv
      intro kv' hkv'
      rcases mapInsert_mem m0 c.Path c kv' hkv' with h | h
      · exact h0 kv' h
      · rw [h]

/-- The path of any parsed entry: the raw recorded field when absolute,
otherwise the raw field joined onto the manifest file's directory — no
other input (in particular no working directory) enters. -/
theorem readEntry_path_resolution (dir line : Str) :
    ∃ raw, (readEntry dir line).Path =
      if isAbsL raw then raw else joinPath dir raw :=
  ⟨(goSplit [' ', '*'] line).getD 1 [], rfl⟩

/-! ## The string order under `Checksums.Less` -/

theorem ltStr_cons (a b : Char) (as bs : Str) :
    ltStr (a :: as) (b :: bs) =
      if a < b then true else if b < a then false else ltStr as bs := rfl

theorem charEq_of_not_lt (a b : Char) (h1 : ¬a < b) (h2 : ¬b < a) : a = b :=
  le_antisymm (not_lt.mp h2) (not_lt.mp h1)

theorem ltStr_irrefl : ∀ l : Str, ltStr l l = false := by
  intro l
  induction l with
  | nil => rfl
  | cons c rest ih => rw [ltStr_cons, if_neg (lt_irrefl c), if_neg (lt_irrefl c), ih]

theorem ltStr_asymm : ∀ l₁ l₂ : Str, ltStr l₁ l₂ = true → ltStr l₂ l₁ = false := by
  intro l₁
  induction l₁ with
  | nil =>
      intro l₂ h
      cases l₂ with
      | nil => exact absurd h (by simp [ltStr])
      | cons c cs => rfl
  | cons x xs ih =>
      intro l₂ h
      cases l₂ with
      | nil => exact absurd h (by simp [ltStr])
      | cons y ys =>
          rw [ltStr_cons] at h ⊢
          by_cases hxy : x < y
          · rw [if_neg (lt_asymm hxy), if_pos hxy]
          · rw [if_neg hxy] at h
            by_cases hyx : y < x
            · rw [if_pos hyx] at h
              exact absurd h (by simp)
            · rw [if_neg hyx] at h
              rw [if_neg hyx, if_neg hxy, ih ys h]

theorem ltStr_trans : ∀ l₁ l₂ l₃ : Str,
    ltStr l₁ l₂ = true → ltStr l₂ l₃ = true → ltStr l₁ l₃ = true := by
  intro l₁
  induction l₁ with
  | nil =>
      intro l₂ l₃ h1 h2
      cases l₂ with
      | nil => exact absurd h1 (by simp [ltStr])
      | cons y ys =>
          cases l₃ with
          | nil => exact absurd h2 (by simp [ltStr])
          | cons z zs => rfl
  | cons x xs ih =>
      intro l₂ l₃ h1 h2
      cases l₂ with
      | nil => exact absurd h1 (by simp [ltStr])
      | cons y ys =>
          cases l₃ with
          | nil => exact absurd h2 (by simp [ltStr])
          | cons z zs =>
              rw [ltStr_cons] at h1 h2 ⊢
              by_cases hxy : x < y
              · by_cases hyz : y < z
                · rw [if_pos (lt_trans hxy hyz)]
                · rw [if_neg hyz] at h2
                  by_cases hzy : z < y
                  · rw [if_pos hzy] at h2
                    exact absurd h2 (by simp)
                  · have : y = z := charEq_of_not_lt y z hyz hzy
                    rw [if_pos (this ▸ hxy)]
              · rw [if_neg hxy] at h1
                by_cases hyx : y < x
                · rw [if_pos hyx] at h1
                  exact absurd h1 (by simp)
                · rw [if_neg hyx] at h1
                  have hxy' : x = y := charEq_of_not_lt x y hxy hyx
                  subst hxy'
                  by_cases hxz : x < z
                  · rw [if_pos hxz]
                  · rw [if_neg hxz] at h2 ⊢
                    by_cases hzx : z < x
                    · rw [if_pos hzx] at h2
                      exact absurd h2 (by simp)
                    · rw [if_neg hzx] at h2 ⊢
                      exact ih ys zs h1 h2

theorem ltStr_connex : ∀ l₁ l₂ : Str,
    ltStr l₁ l₂ = false → ltStr l₂ l₁ = false → l₁ = l₂ := by
  intro l₁
  induction l₁ with
  | nil =>
      intro l₂ h1 _
      cases l₂ with
      | nil => rfl
      | cons y ys => exact absurd h1 (by simp [ltStr])
  | cons x xs ih =>
      intro l₂ h1 h2
      cases l₂ with
      | nil => exact absurd h2 (by simp [ltStr])
      | cons y ys =>
          rw [ltStr_cons] at h1 h2
          by_cases hxy : x < y
          · rw [if_pos hxy] at h1
            exact absurd h1 (by simp)
          · by_cases hyx : y < x
            · rw [if_neg hxy, if_pos hyx] at h1
              rw [if_pos hyx] at h2
              exact absurd h2 (by simp)
            · rw [if_neg hxy, if_neg hyx] at h1
              rw [if_neg hyx, if_neg hxy] at h2
              have : x = y := charEq_of_not_lt x y hxy hyx
              rw [this, ih ys h1 h2]

theorem ltStr_negTrans (a b c : Str)
    (h1 : ltStr b a = false) (h2 : ltStr c b = false) : ltStr c a = false := by
  cases hab : ltStr a b with
  | true =>
      cases hca : ltStr c a with
      | true => exact absurd (ltStr_trans c a b hca hab) (by simp [h2])
      | false => rfl
  | false =>
      have : a = b := ltStr_connex a b hab h1
      rw [← this] at h2
      exact h2

/-! ## The key order of `Checksums.Less` -/

theorem checksumLess_eq_pLess (a b : Checksum) :
    checksumLess a b = pLess (keyOf a) (keyOf b) := rfl

theorem pLess_asymm (p q : Str × Str) (h : pLess p q = true) : pLess q p = false := by
  unfold pLess at h ⊢
  by_cases h1 : p.1 = q.1
  · rw [if_pos h1] at h
    rw [if_pos h1.symm, ltStr_asymm _ _ h]
  · rw [if_neg h1] at h
    rw [if_neg (fun e => h1 e.symm), ltStr_asymm _ _ h]

theorem pLess_trans (p q r : Str × Str)
    (h1 : pLess p q = true) (h2 : pLess q r = true) : pLess p r = true := by
  unfold pLess at h1 h2 ⊢
  by_cases hpq : p.1 = q.1
  · rw [if_pos hpq] at h1
    by_cases hqr : q.1 = r.1
    · rw [if_pos hqr] at h2
      rw [if_pos (hpq.trans hqr)]
      exact ltStr_trans _ _ _ h1 h2
    · rw [if_neg hqr] at h2
      rw [if_neg (fun e => hqr (hpq.symm.trans e)), hpq]
      exact h2
  · rw [if_neg hpq] at h1
    by_cases hqr : q.1 = r.1
    · rw [if_neg (fun e => hpq (e.trans hqr.symm)), ← hqr]
      exact h1
    · rw [if_neg hqr] at h2
      have hpr : ltStr p.1 r.1 = true := ltStr_trans _ _ _ h1 h2
      rw [if_neg (fun e => by
        rw [e] at h1
        exact absurd h1 (by simp [ltStr_asymm _ _ h2])), hpr]

theorem pLess_connex (p q : Str × Str)
    (h1 : pLess p q = false) (h2 : pLess q p = false) : p = q := by
  unfold pLess at h1 h2
  by_cases hpq : p.1 = q.1
  · rw [if_pos hpq] at h1
    rw [if_pos hpq.symm] at h2
    have := ltStr_connex _ _ h1 h2
    exact Prod.ext hpq this
  · rw [if_neg hpq] at h1
    rw [if_neg (fun e => hpq e.symm)] at h2
    exact absurd (ltStr_connex _ _ h1 h2) hpq

theorem pLess_negTrans (p q r : Str × Str)
    (h1 : pLess q p = false) (h2 : pLess r q = false) : pLess r p = false := by
  cases hpq : pLess p q with
  | true =>
      cases hrp : pLess r p with
      | true => exact absurd (pLess_trans r p q hrp hpq) (by simp [h2])
      | false => rfl
  | false =>
      have : p = q := pLess_connex p q hpq h1
      rw [← this] at h2
      exact h2

theorem leC_total (a b : Checksum) : leC a b ∨ leC b a := by
  unfold leC
  cases h : checksumLess b a with
  | false => exact Or.inl rfl
  | true =>
      right
      rw [checksumLess_eq_pLess] at h ⊢
      exact pLess_asymm _ _ h

theorem leC_trans (a b c : Checksum) (h1 : leC a b) (h2 : leC b c) : leC a c := by
  unfold leC at h1 h2 ⊢
  rw [checksumLess_eq_pLess] at h1 h2 ⊢
  exact pLess_negTrans _ _ _ h1 h2

theorem ordC_antisymm (a b : Checksum) (h1 : ordC a b) (h2 : ordC b a) : a = b := by
  rcases h1 with h1 | rfl
  · rcases h2 with h2 | rfl
    · rw [checksumLess_eq_pLess] at h1 h2
      exact absurd h2 (by simp [pLess_asymm _ _ h1])
    · rfl
  · rfl

theorem leC_to_ordC (a b : Checksum) (h : leC a b)
    (hne : lowerL a.Path ≠ lowerL b.Path) : ordC a b := by
  unfold leC at h
  cases hab : checksumLess a b with
  | true => exact Or.inl hab
  | false =>
      rw [checksumLess_eq_pLess] at hab h
      have := pLess_connex _ _ hab h
      exact absurd (congrArg Prod.snd this) hne

/-! ## Character provenance through the path functions -/

theorem splitChar_ne_nil (d : Char) : ∀ l : Str, splitChar d l ≠ [] := by
  intro l
  induction l with
  | nil => simp [splitChar]
  | cons x rest ih =>
      unfold splitChar
      by_cases hx : x = d
      · simp [hx]
      · rw [if_neg hx]
        cases hs : splitChar d rest with
        | nil => exact absurd hs ih
        | cons s ss => simp

theorem splitChar_cons_eq (d x : Char) (rest : Str) :
    splitChar d (x :: rest) =
      if x = d then [] :: splitChar d rest
      else
        match splitChar d rest with
        | s :: ss => (x :: s) :: ss
        | [] => [[x]] := rfl

theorem splitChar_cons_sep (d x : Char) (rest : Str) (hx : x = d) :
    splitChar d (x :: rest) = [] :: splitChar d rest := by
  rw [splitChar_cons_eq, if_pos hx]

theorem splitChar_cons_ne (d x : Char) (rest : Str) (hx : ¬x = d) :
    splitChar d (x :: rest) =
      (x :: (splitChar d rest).headD []) :: (splitChar d rest).tail := by
  rw [splitChar_cons_eq, if_neg hx]
  cases hs : splitChar d rest with
  | nil => exact absurd hs (splitChar_ne_nil d rest)
  | cons s ss => simp

theorem headD_mem_of_ne_nil {A : Type} (l : List A) (dflt : A) (h : l ≠ []) :
    l.headD dflt ∈ l := by
  cases l with
  | nil => exact absurd rfl h
  | cons a t => exact List.mem_cons_self a t

theorem tail_subset_of_mem {A : Type} (l : List A) (x : A) (h : x ∈ l.tail) :
    x ∈ l := by
  cases l with
  | nil => simp at h
  | cons a t => exact List.mem_cons_of_mem a h

theorem splitChar_mem (d : Char) :
    ∀ (l : Str) (comp : Str), comp ∈ splitChar d l → ∀ c ∈ comp, c ∈ l := by
  intro l
  induction l with
  | nil =>
      intro comp hcomp c hc
      simp [splitChar] at hcomp
      subst hcomp
      simp at hc
  | cons x rest ih =>
      intro comp hcomp c hc
      by_cases hx : x = d
      · rw [splitChar_cons_sep d x rest hx] at hcomp
        rcases List.mem_cons.mp hcomp with rfl | hcomp
        · simp at hc
        · exact List.mem_cons_of_mem x (ih comp hcomp c hc)
      · rw [splitChar_cons_ne d x rest hx] at hcomp
        rcases List.mem_cons.mp hcomp with rfl | hcomp
        · rcases List.mem_cons.mp hc with rfl | hc
          · exact List.mem_cons_self c rest
          · refine List.mem_cons_of_mem x ?_
            exact ih ((splitChar d rest).headD [])
              (headD_mem_of_ne_nil _ [] (splitChar_ne_nil d rest)) c hc
        · exact List.mem_cons_of_mem x
            (ih comp (tail_subset_of_mem _ comp hcomp) c hc)

theorem splitChar_not_sep (d : Char) :
    ∀ (l : Str) (comp : Str), comp ∈ splitChar d l → d ∉ comp := by
  intro l
  induction l with
  | nil =>
      intro comp hcomp
      simp [splitChar] at hcomp
      subst hcomp
      simp
  | cons x rest ih =>
      intro comp hcomp
      by_cases hx : x = d
      · rw [splitChar_cons_sep d x rest hx] at hcomp
        rcases List.mem_cons.mp hcomp with rfl | hcomp
        · simp
        · exact ih comp hcomp
      · rw [splitChar_cons_ne d x rest hx] at hcomp
        rcases List.mem_cons.mp hcomp with rfl | hcomp
        · intro hmem
          rcases List.mem_cons.mp hmem with rfl | hmem
          · exact hx rfl
          · exact ih ((splitChar d rest).headD [])
              (headD_mem_of_ne_nil _ [] (splitChar_ne_nil d rest)) hmem
        · exact ih comp (tail_subset_of_mem _ comp hcomp)

theorem joinComps_mem :
    ∀ (C : List Str) (c : Char), c ∈ joinComps C →
      (∃ comp ∈ C, c ∈ comp) ∨ c = '/' := by
  intro C
  induction C with
  | nil => intro c hc; simp [joinComps] at hc
  | cons comp rest ih =>
      intro c hc
      cases rest with
      | nil =>
          left
          exact ⟨comp, List.mem_cons_self comp [], by simpa [joinComps] using hc⟩
      | cons comp2 rest2 =>
          rw [show joinComps (comp :: comp2 :: rest2) =
              comp ++ '/' :: joinComps (comp2 :: rest2) from rfl] at hc
          rcases List.mem_append.mp hc with hc | hc
          · exact Or.inl ⟨comp, List.mem_cons_self comp _, hc⟩
          · rcases List.mem_cons.mp hc with rfl | hc
            · exact Or.inr rfl
            · rcases ih c hc with ⟨comp', hm, hcc⟩ | hsl
              · exact Or.inl ⟨comp', List.mem_cons_of_mem comp hm, hcc⟩
              · exact Or.inr hsl

theorem popStack_nil (rooted : Bool) (c : Str) :
    popStack rooted c [] = if rooted then [] else [c] := rfl

theorem popStack_cons (rooted : Bool) (c top : Str) (acc' : List Str) :
    popStack rooted c (top :: acc') =
      if top = ['.', '.'] then c :: top :: acc' else acc' := rfl

theorem popStack_mem (rooted : Bool) (c : Str) (acc : List Str) (out : Str)
    (h : out ∈ popStack rooted c acc) : out ∈ acc ∨ out = c := by
  cases acc with
  | nil =>
      rw [popStack_nil] at h
      by_cases hr : rooted
      · rw [if_pos hr] at h
        simp at h
      · rw [if_neg hr] at h
        exact Or.inr (List.mem_singleton.mp h)
  | cons top acc' =>
      rw [popStack_cons] at h
      by_cases ht : top = ['.', '.']
      · rw [if_pos ht] at h
        rcases List.mem_cons.mp h with rfl | h
        · exact Or.inr rfl
        · exact Or.inl h
      · rw [if_neg ht] at h
        exact Or.inl (List.mem_cons_of_mem top h)

theorem cleanCore_cons_eq (rooted : Bool) (acc : List Str) (c : Str)
    (rest : List Str) :
    cleanCore rooted acc (c :: rest) =
      if c = [] ∨ c = ['.'] then cleanCore rooted acc rest
      else if c = ['.', '.'] then cleanCore rooted (popStack rooted c acc) rest
      else cleanCore rooted (c :: acc) rest := rfl

theorem cleanCore_mem (rooted : Bool) :
    ∀ (comps : List Str) (acc : List Str) (out : Str),
      out ∈ cleanCore rooted acc comps →
      out ∈ acc ∨ out ∈ comps ∨ out = ['.', '.'] := by
  intro comps
  induction comps with
  | nil =>
      intro acc out h
      rw [show cleanCore rooted acc [] = acc.reverse from rfl] at h
      exact Or.inl (List.mem_reverse.mp h)
  | cons c rest ih =>
      intro acc out h
      rw [cleanCore_cons_eq] at h
      by_cases h1 : c = [] ∨ c = ['.']
      · rw [if_pos h1] at h
        rcases ih acc out h with h | h | h
        · exact Or.inl h
        · exact Or.inr (Or.inl (List.mem_cons_of_mem c h))
        · exact Or.inr (Or.inr h)
      · rw [if_neg h1] at h
        by_cases h2 : c = ['.', '.']
        · rw [if_pos h2] at h
          rcases ih _ out h with h | h | h
          · rcases popStack_mem rooted c acc out h with h | rfl
            · exact Or.inl h
            · exact Or.inr (Or.inr h2)
          · exact Or.inr (Or.inl (List.mem_cons_of_mem c h))
          · exact Or.inr (Or.inr h)
        · rw [if_neg h2] at h
          rcases ih (c :: acc) out h with h | h | h
          · rcases List.mem_cons.mp h with rfl | h
            · exact Or.inr (Or.inl (List.mem_cons_self out rest))
            · exact Or.inl h
          · exact Or.inr (Or.inl (List.mem_cons_of_mem c h))
          · exact Or.inr (Or.inr h)

theorem cleanL_eq_of_ne_nil (p : Str) (hp : p ≠ []) :
    cleanL p =
      if isAbsL p then '/' :: joinComps (cleanCore (isAbsL p) [] (splitChar '/' p))
      else if cleanCore (isAbsL p) [] (splitChar '/' p) = [] then ['.']
      else joinComps (cleanCore (isAbsL p) [] (splitChar '/' p)) := by
  simp only [cleanL]
  rw [if_neg hp]

theorem cleanL_mem (p : Str) (c : Char) (h : c ∈ cleanL p) :
    c ∈ p ∨ c = '/' ∨ c = '.' := by
  by_cases hp : p = []
  · rw [show cleanL p = ['.'] by rw [cleanL, if_pos hp]] at h
    rw [List.mem_singleton.mp h]
    exact Or.inr (Or.inr rfl)
  · rw [cleanL_eq_of_ne_nil p hp] at h
    have hcomp : ∀ out ∈ cleanCore (isAbsL p) [] (splitChar '/' p), ∀ ch ∈ out,
        ch ∈ p ∨ ch = '.' := by
      intro out hout ch hch
      rcases cleanCore_mem (isAbsL p) (splitChar '/' p) [] out hout with h0 | h0 | h0
      · simp at h0
      · exact Or.inl (splitChar_mem '/' p out h0 ch hch)
      · subst h0
        rcases List.mem_cons.mp hch with rfl | hch
        · exact Or.inr rfl
        · rw [List.mem_singleton.mp hch]
          exact Or.inr rfl
    by_cases hr : isAbsL p
    · rw [if_pos hr] at h
      rcases List.mem_cons.mp h with rfl | h
      · exact Or.inr (Or.inl rfl)
      · rcases joinComps_mem _ c h with ⟨comp, hm, hcc⟩ | rfl
        · rcases hcomp comp hm c hcc with h0 | h0
          · exact Or.inl h0
          · exact Or.inr (Or.inr h0)
        · exact Or.inr (Or.inl rfl)
    · rw [if_neg hr] at h
      by_cases hc0 : cleanCore (isAbsL p) [] (splitChar '/' p) = []
      · rw [if_pos hc0] at h
        rw [List.mem_singleton.mp h]
        exact Or.inr (Or.inr rfl)
      · rw [if_neg hc0] at h
        rcases joinComps_mem _ c h with ⟨comp, hm, hcc⟩ | rfl
        · rcases hcomp comp hm c hcc with h0 | h0
          · exact Or.inl h0
          · exact Or.inr (Or.inr h0)
        · exact Or.inr (Or.inl rfl)

theorem joinPath_mem (a b : Str) (c : Char) (h : c ∈ joinPath a b) :
    c ∈ a ∨ c ∈ b ∨ c = '/' ∨ c = '.' := by
  unfold joinPath at h
  by_cases hab : a = [] && b = []
  · rw [if_pos hab] at h
    simp at h
  · rw [if_neg hab] at h
    by_cases ha : a = []
    · rw [if_pos ha] at h
      rcases cleanL_mem b c h with h0 | h0 | h0
      · exact Or.inr (Or.inl h0)
      · exact Or.inr (Or.inr (Or.inl h0))
      · exact Or.inr (Or.inr (Or.inr h0))
    · rw [if_neg ha] at h
      by_cases hb : b = []
      · rw [if_pos hb] at h
        rcases cleanL_mem a c h with h0 | h0 | h0
        · exact Or.inl h0
        · exact Or.inr (Or.inr (Or.inl h0))
        · exact Or.inr (Or.inr (Or.inr h0))
      · rw [if_neg hb] at h
        rcases cleanL_mem _ c h with h0 | h0 | h0
        · rcases List.mem_append.mp h0 with h1 | h1
          · exact Or.inl h1
          · rcases List.mem_cons.mp h1 with rfl | h1
            · exact Or.inr (Or.inr (Or.inl rfl))
            · exact Or.inr (Or.inl h1)
        · exact Or.inr (Or.inr (Or.inl h0))
        · exact Or.inr (Or.inr (Or.inr h0))

theorem relComps_mem (p : Str) (comp : Str) (h : comp ∈ relComps p) :
    ∀ c ∈ comp, c ∈ p := by
  intro c hc
  unfold relComps at h
  by_cases hq : (if isAbsL p then p.drop 1 else p) = []
  · rw [if_pos hq] at h
    simp at h
  · rw [if_neg hq] at h
    have := splitChar_mem '/' _ comp h c hc
    by_cases hr : isAbsL p
    · rw [if_pos hr] at this
      exact List.mem_of_mem_drop this
    · rwa [if_neg hr] at this

theorem relPath_mem (base targ r : Str) (h : relPath base targ = some r) :
    ∀ c ∈ r, c ∈ base ∨ c ∈ targ ∨ c = '/' ∨ c = '.' := by
  intro c hc
  unfold relPath at h
  by_cases h1 : cleanL targ = cleanL base
  · rw [if_pos h1] at h
    rw [← Option.some.inj h] at hc
    rw [List.mem_singleton.mp hc]
    exact Or.inr (Or.inr (Or.inr rfl))
  · rw [if_neg h1] at h
    set base1 := if cleanL base = ['.'] then [] else cleanL base with hbase1
    by_cases h2 : (decide (base1 ≠ []) && isAbsL base1) ≠ isAbsL (cleanL targ)
    · rw [if_pos h2] at h
      simp at h
    · rw [if_neg h2] at h
      have hbmem : ∀ comp ∈ (stripCommon (relComps base1) (relComps (cleanL targ))).2,
          ∀ ch ∈ comp, ch ∈ targ ∨ ch = '/' ∨ ch = '.' := by
        have hsub : ∀ comp ∈ (stripCommon (relComps base1) (relComps (cleanL targ))).2,
            comp ∈ relComps (cleanL targ) := by
          intro comp hcomp
          have hgen : ∀ (as bs : List Str) (x : Str),
              x ∈ (stripCommon as bs).2 → x ∈ bs := by
            intro as
            induction as with
            | nil => intro bs x hx; exact hx
            | cons a as' ih =>
                intro bs x hx
                cases bs with
                | nil => exact hx
                | cons b bs' =>
                    rw [show stripCommon (a :: as') (b :: bs') =
                        if a = b then stripCommon as' bs'
                        else (a :: as', b :: bs') from rfl] at hx
                    by_cases hab : a = b
                    · rw [if_pos hab] at hx
                      exact List.mem_cons_of_mem b (ih bs' x hx)
                    · rw [if_neg hab] at hx
                      exact hx
          exact hgen (relComps base1) (relComps (cleanL targ)) comp hcomp
        intro comp hcomp ch hch
        have := relComps_mem (cleanL targ) comp (hsub comp hcomp) ch hch
        rcases cleanL_mem targ ch this with h0 | h0 | h0
        · exact Or.inl h0
        · exact Or.inr (Or.inl h0)
        · exact Or.inr (Or.inr h0)
      by_cases h3 : (stripCommon (relComps base1) (relComps (cleanL targ))).1.headD []
          = ['.', '.']
      · rw [if_pos h3] at h
        simp at h
      · rw [if_neg h3] at h
        by_cases h4 : (stripCommon (relComps base1) (relComps (cleanL targ))).1 ≠ []
        · rw [if_pos h4] at h
          rw [← Option.some.inj h] at hc
          rcases joinComps_mem _ c hc with ⟨comp, hm, hcc⟩ | rfl
          · rcases List.mem_append.mp hm with hm | hm
            · rw [List.eq_of_mem_replicate hm] at hcc
              rcases List.mem_cons.mp hcc with rfl | hcc
              · exact Or.inr (Or.inr (Or.inr rfl))
              · rw [List.mem_singleton.mp hcc]
                exact Or.inr (Or.inr (Or.inr rfl))
            · rcases hbmem comp hm c hcc with h0 | h0
              · exact Or.inr (Or.inl h0)
              · exact Or.inr (Or.inr h0)
          · exact Or.inr (Or.inr (Or.inl rfl))
        · rw [if_neg h4] at h
          rw [← Option.some.inj h] at hc
          rcases joinComps_mem _ c hc with ⟨comp, hm, hcc⟩ | rfl
          · rcases hbmem comp hm c hcc with h0 | h0
            · exact Or.inr (Or.inl h0)
            · exact Or.inr (Or.inr h0)
          · exact Or.inr (Or.inr (Or.inl rfl))

theorem absPath_mem (cwd p : Str) (c : Char) (h : c ∈ absPath cwd p) :
    c ∈ cwd ∨ c ∈ p ∨ c = '/' ∨ c = '.' := by
  unfold absPath at h
  by_cases hr : isAbsL p
  · rw [if_pos hr] at h
    rcases cleanL_mem p c h with h0 | h0 | h0
    · exact Or.inr (Or.inl h0)
    · exact Or.inr (Or.inr (Or.inl h0))
    · exact Or.inr (Or.inr (Or.inr h0))
  · rw [if_neg hr] at h
    exact joinPath_mem cwd p c h

/-! ## Character hygiene of a rendered manifest -/

theorem isHexChar_ne_cr (c : Char) (h : isHexChar c = true) : c ≠ '\r' := by
  intro he
  subst he
  exact absurd h (by decide)

theorem dirPath_mem (p : Str) (c : Char) (h : c ∈ dirPath p) :
    c ∈ p ∨ c = '/' ∨ c = '.' := by
  unfold dirPath at h
  rcases cleanL_mem _ c h with h0 | h0 | h0
  · left
    unfold upToLastSlash at h0
    rw [List.mem_reverse] at h0
    have := (List.dropWhile_sublist (l := p.reverse)
      (p := fun c => decide (c ≠ '/'))).mem h0
    exact List.mem_reverse.mp this
  · exact Or.inr (Or.inl h0)
  · exact Or.inr (Or.inr h0)

theorem relOrAbs_mem (cwd dir p : Str) (c : Char) (h : c ∈ relOrAbs cwd dir p) :
    c ∈ cwd ∨ c ∈ dir ∨ c ∈ p ∨ c = '/' ∨ c = '.' := by
  unfold relOrAbs at h
  cases hr : relPath dir p with
  | some r =>
      rw [hr] at h
      rcases relPath_mem dir p r hr c h with h0 | h0 | h0 | h0
      · exact Or.inr (Or.inl h0)
      · exact Or.inr (Or.inr (Or.inl h0))
      · exact Or.inr (Or.inr (Or.inr (Or.inl h0)))
      · exact Or.inr (Or.inr (Or.inr (Or.inr h0)))
  | none =>
      rw [hr] at h
      rcases absPath_mem cwd p c h with h0 | h0 | h0 | h0
      · exact Or.inl h0
      · exact Or.inr (Or.inr (Or.inl h0))
      · exact Or.inr (Or.inr (Or.inr (Or.inl h0)))
      · exact Or.inr (Or.inr (Or.inr (Or.inr h0)))

/-- No newline and no carriage return anywhere in a string. -/
theorem entryLine_clean (cwd p : Str) (c : Checksum)
    (hhash : ∀ ch ∈ c.Hash, isHexChar ch = true)
    (hpath : ∀ ch ∈ c.Path, ch ≠ '\n' ∧ ch ≠ '\r')
    (hcwd : ∀ ch ∈ cwd, ch ≠ '\n' ∧ ch ≠ '\r')
    (hp : ∀ ch ∈ p, ch ≠ '\n' ∧ ch ≠ '\r') :
    ∀ ch ∈ entryLine cwd (dirPath p) c, ch ≠ '\n' ∧ ch ≠ '\r' := by
  intro ch hch
  unfold entryLine at hch
  rcases List.mem_append.mp hch with hch | hch
  · exact ⟨isHexChar_ne_newline ch (hhash ch hch), isHexChar_ne_cr ch (hhash ch hch)⟩
  · rcases List.mem_cons.mp hch with rfl | hch
    · exact ⟨by decide, by decide⟩
    · rcases List.mem_cons.mp hch with rfl | hch
      · exact ⟨by decide, by decide⟩
      · rcases relOrAbs_mem cwd (dirPath p) c.Path ch hch with h0 | h0 | h0 | h0 | h0
        · exact hcwd ch h0
        · rcases dirPath_mem p ch h0 with h1 | h1 | h1
          · exact hp ch h1
          · exact ⟨by rw [h1]; decide, by rw [h1]; decide⟩
          · exact ⟨by rw [h1]; decide, by rw [h1]; decide⟩
        · exact hpath ch h0
        · exact ⟨by rw [h0]; decide, by rw [h0]; decide⟩
        · exact ⟨by rw [h0]; decide, by rw [h0]; decide⟩

/-! ## A rendered manifest, line by line -/

theorem foldl_append_flatten {A B : Type} (f : B → List A) (g : List A → B → List A)
    (hg : ∀ out c, g out c = out ++ f c) :
    ∀ (l : List B) (acc : List A),
      l.foldl g acc = acc ++ (l.map f).flatten := by
  intro l
  induction l with
  | nil => intro acc; simp
  | cons c rest ih =>
      intro acc
      rw [List.foldl_cons, hg, ih]
      simp

theorem writeFileBytes_flatten (cwd : Str) (sums : List Checksum) (p : Str) :
    writeFileBytes cwd sums p =
      ((List.insertionSort leC sums).map
        (fun c => entryLine cwd (dirPath p) c ++ ['\n'])).flatten := by
  unfold writeFileBytes
  rw [foldl_append_flatten (fun c => entryLine cwd (dirPath p) c ++ ['\n'])
    (fun out c => out ++ entryLine cwd (dirPath p) c ++ ['\n'])
    (fun out c => by
      show out ++ entryLine cwd (dirPath p) c ++ ['\n'] =
        out ++ (entryLine cwd (dirPath p) c ++ ['\n'])
      rw [List.append_assoc])]
  simp

theorem flatten_lines_mem {lines : List Str} {ch : Char}
    (h : ch ∈ (lines.map (fun l => l ++ ['\n'])).flatten) :
    (∃ line ∈ lines, ch ∈ line) ∨ ch = '\n' := by
  rw [List.mem_flatten] at h
  obtain ⟨l', hl', hch⟩ := h
  obtain ⟨line, hline, rfl⟩ := List.mem_map.mp hl'
  rcases List.mem_append.mp hch with h0 | h0
  · exact Or.inl ⟨line, hline, h0⟩
  · exact Or.inr (List.mem_singleton.mp h0)

theorem goSplit_newline_flatten :
    ∀ lines : List Str, (∀ line ∈ lines, '\n' ∉ line) →
      goSplit ['\n'] ((lines.map (fun l => l ++ ['\n'])).flatten) = lines ++ [[]] := by
  intro lines
  induction lines with
  | nil => intro _; rfl
  | cons line rest ih =>
      intro hnl
      have hline : ∀ c ∈ line, c ≠ '\n' :=
        fun c hc he => hnl line (List.mem_cons_self line rest) (he ▸ hc)
      rw [List.map_cons, List.flatten_cons]
      have hb : breakOn ['\n'] ((line ++ ['\n']) ++
          ((rest.map (fun l => l ++ ['\n'])).flatten)) =
          some (line, (rest.map (fun l => l ++ ['\n'])).flatten) := by
        have := breakOn_append '\n' [] line
          ((rest.map (fun l => l ++ ['\n'])).flatten) hline
        simpa using this
      rw [List.append_assoc] at hb
      rw [List.append_assoc, goSplit_of_breakOn_some ['\n'] (by simp) _ _ _ hb,
        ih (fun l hl => hnl l (List.mem_cons_of_mem line hl))]
      rfl

theorem manifestLines_flatten (lines : List Str)
    (h : ∀ line ∈ lines, '\n' ∉ line ∧ '\r' ∉ line) :
    manifestLines ((lines.map (fun l => l ++ ['\n'])).flatten) = lines ++ [[]] := by
  unfold manifestLines
  rw [goReplace_eq_self '\r' ['\n'] ['\n'] _ (by
    intro hcr
    rcases flatten_lines_mem hcr with ⟨line, hl, hcrl⟩ | h0
    · exact (h line hl).2 hcrl
    · exact absurd h0 (by decide))]
  exact goSplit_newline_flatten lines (fun line hl => (h line hl).1)

theorem filterMap_eq_map_of_some {A B : Type} (g : A → Option B) (f : A → B) :
    ∀ l : List A, (∀ x ∈ l, g x = some (f x)) → l.filterMap g = l.map f := by
  intro l
  induction l with
  | nil => intro _; rfl
  | cons x rest ih =>
      intro h
      rw [List.filterMap_cons, h x (List.mem_cons_self x rest), List.map_cons,
        ih (fun y hy => h y (List.mem_cons_of_mem x hy))]

/-- A rendered line parses back to an entry carrying the same hash, with
the path taken up to the first `" *"` of the rendered relative path and
re-resolved against the manifest directory. -/
theorem parsedLine_entryLine (cwd p : Str) (c : Checksum)
    (hlen : c.Hash.length = 32)
    (hhex : ∀ ch ∈ c.Hash, isHexChar ch = true) :
    parsedLine p (entryLine cwd (dirPath p) c) =
      some ⟨c.Hash,
        if isAbsL (upToStar (relOrAbs cwd (dirPath p) c.Path))
        then upToStar (relOrAbs cwd (dirPath p) c.Path)
        else joinPath (dirPath p) (upToStar (relOrAbs cwd (dirPath p) c.Path))⟩ := by
  unfold parsedLine
  unfold entryLine
  rw [if_neg (by
    intro h0
    have : (32 : Nat) ≤ 0 := by
      calc (32 : Nat) = c.Hash.length := hlen.symm
      _ ≤ (c.Hash ++ ' ' :: '*' :: relOrAbs cwd (dirPath p) c.Path).length := by
          simp
      _ = 0 := h0
    omega)]
  rw [if_pos (isValidLine_decomp _ |>.mpr
    ⟨c.Hash, relOrAbs cwd (dirPath p) c.Path, rfl, hlen, hhex⟩)]
  rw [readEntry_rendered (dirPath p) c.Hash (relOrAbs cwd (dirPath p) c.Path)
    hlen hhex]

/-! ## Lowercase hex digests -/

theorem hexEncode_length : ∀ bytes : List Nat,
    (hexEncode bytes).length = 2 * bytes.length := by
  intro bytes
  induction bytes with
  | nil => rfl
  | cons b rest ih =>
      show ([hexDigitChar (b / 16), hexDigitChar (b % 16)] ++ hexEncode rest).length
        = 2 * (b :: rest).length
      rw [List.length_append, ih]
      simp
      omega

theorem hexDigitChar_lower (n : Nat) (h : n < 16) :
    isLowerHex (hexDigitChar n) = true := by
  have hall : ∀ m ∈ List.range 16, isLowerHex (hexDigitChar m) = true := by decide
  exact hall n (List.mem_range.mpr h)

theorem hexEncode_mem (bytes : List Nat) (ch : Char) (h : ch ∈ hexEncode bytes) :
    ∃ b ∈ bytes, ch = hexDigitChar (b / 16) ∨ ch = hexDigitChar (b % 16) := by
  unfold hexEncode at h
  rw [List.mem_flatten] at h
  obtain ⟨pair, hpair, hch⟩ := h
  obtain ⟨b, hb, rfl⟩ := List.mem_map.mp hpair
  rcases List.mem_cons.mp hch with rfl | hch
  · exact ⟨b, hb, Or.inl rfl⟩
  · rw [List.mem_singleton.mp hch]
    exact ⟨b, hb, Or.inr rfl⟩

theorem hexEncode_lower (bytes : List Nat) (hlt : ∀ b ∈ bytes, b < 256) :
    ∀ ch ∈ hexEncode bytes, isLowerHex ch = true := by
  intro ch hch
  obtain ⟨b, hb, hor⟩ := hexEncode_mem bytes ch hch
  have h16a : b / 16 < 16 := Nat.div_lt_of_lt_mul (by
    have := hlt b hb
    omega)
  have h16b : b % 16 < 16 := Nat.mod_lt b (by omega)
  rcases hor with rfl | rfl
  · exact hexDigitChar_lower _ h16a
  · exact hexDigitChar_lower _ h16b

theorem isHexChar_of_lower (ch : Char) (h : isLowerHex ch = true) :
    isHexChar ch = true := by
  unfold isLowerHex at h
  unfold isHexChar
  rcases Bool.or_eq_true_iff.mp h with h0 | h0 <;> simp [h0]

/-! ## Parsing back a written manifest -/

theorem readFileSums_writeFileBytes (cwd p : Str) (sums : List Checksum)
    (hhash : ∀ c ∈ sums, c.Hash.length = 32 ∧ ∀ ch ∈ c.Hash, isHexChar ch = true)
    (hpath : ∀ c ∈ sums, ∀ ch ∈ c.Path, ch ≠ '\n' ∧ ch ≠ '\r')
    (hcwd : ∀ ch ∈ cwd, ch ≠ '\n' ∧ ch ≠ '\r')
    (hp : ∀ ch ∈ p, ch ≠ '\n' ∧ ch ≠ '\r') :
    readFileSums p (writeFileBytes cwd sums p) =
      (List.insertionSort leC sums).map (fun c =>
        (⟨c.Hash,
          if isAbsL (upToStar (relOrAbs cwd (dirPath p) c.Path))
          then upToStar (relOrAbs cwd (dirPath p) c.Path)
          else joinPath (dirPath p) (upToStar (relOrAbs cwd (dirPath p) c.Path))⟩ :
          Checksum)) := by
  have hmem : ∀ c ∈ List.insertionSort leC sums, c ∈ sums :=
    fun c hc => (List.perm_insertionSort leC sums).mem_iff.mp hc
  rw [readFileSums_eq, writeFileBytes_flatten]
  rw [show (List.insertionSort leC sums).map
        (fun c => entryLine cwd (dirPath p) c ++ ['\n']) =
      ((List.insertionSort leC sums).map (entryLine cwd (dirPath p))).map
        (fun l => l ++ ['\n']) by rw [List.map_map]; rfl]
  rw [manifestLines_flatten _ (by
    intro line hline
    obtain ⟨c, hc, rfl⟩ := List.mem_map.mp hline
    have hclean := entryLine_clean cwd p c (hhash c (hmem c hc)).2
      (hpath c (hmem c hc)) hcwd hp
    exact ⟨fun hin => (hclean '\n' hin).1 rfl, fun hin => (hclean '\r' hin).2 rfl⟩)]
  rw [List.filterMap_append]
  rw [show List.filterMap (parsedLine p) [[]] = [] from rfl]
  rw [List.filterMap_map]
  rw [filterMap_eq_map_of_some _ _ _ (by
    intro c hc
    exact parsedLine_entryLine cwd p c (hhash c (hmem c hc)).1 (hhash c (hmem c hc)).2)]
  simp

/-! ## C10: written lines are valid entries and re-parse with the same hash -/

/-- C10: a successful `generateMd5` yields exactly 32 lowercase hex
characters (the `%x` rendering of the 16 MD5 digest bytes); every entry
line `new`/`update` write — `<hash> *<path>` plus a newline, for entries
whose hash is 32 hex characters and whose path holds no newline or
carriage return — matches the parser's valid-entry pattern; and parsing a
manifest written by `writeFile` yields exactly one entry per written
line, with the same hash, in the same order.  The last conjunct bridges
the two: lowercase hex characters satisfy the parser's hex class. -/
theorem c10_written_lines_reparse :
    (∀ (md5 : Str → Option (List Nat)) (path : Str) (digest : List Nat) (h : Str),
      md5 path = some digest → digest.length = 16 → (∀ b ∈ digest, b < 256) →
      generateMd5 md5 path = some h →
      h.length = 32 ∧ ∀ ch ∈ h, isLowerHex ch = true) ∧
    (∀ (cwd p : Str) (sums : List Checksum),
      (∀ c ∈ sums, c.Hash.length = 32 ∧ ∀ ch ∈ c.Hash, isHexChar ch = true) →
      (∀ c ∈ sums, ∀ ch ∈ c.Path, ch ≠ '\n' ∧ ch ≠ '\r') →
      (∀ ch ∈ cwd, ch ≠ '\n' ∧ ch ≠ '\r') →
      (∀ ch ∈ p, ch ≠ '\n' ∧ ch ≠ '\r') →
      (∀ line ∈ (List.insertionSort leC sums).map (entryLine cwd (dirPath p)),
        isValidLine line = true) ∧
      (readFileSums p (writeFileBytes cwd sums p)).map (fun c => c.Hash) =
        (List.insertionSort leC sums).map (fun c => c.Hash)) ∧
    (∀ ch : Char, isLowerHex ch = true → isHexChar ch = true) := by
  refine ⟨?_, ?_, isHexChar_of_lower⟩
  · intro md5 path digest h hd hlen hlt hgen
    unfold generateMd5 at hgen
    rw [hd] at hgen
    simp only [Option.map_some'] at hgen
    have hh : hexEncode digest = h := by injection hgen
    subst hh
    refine ⟨?_, hexEncode_lower digest hlt⟩
    rw [hexEncode_length, hlen]
  · intro cwd p sums hhash hpath hcwd hp
    have hmem : ∀ c ∈ List.insertionSort leC sums, c ∈ sums :=
      fun c hc => (List.perm_insertionSort leC sums).mem_iff.mp hc
    constructor
    · intro line hline
      obtain ⟨c, hc, rfl⟩ := List.mem_map.mp hline
      exact isValidLine_decomp _ |>.mpr
        ⟨c.Hash, relOrAbs cwd (dirPath p) c.Path, rfl,
          (hhash c (hmem c hc)).1, (hhash c (hmem c hc)).2⟩
    · rw [readFileSums_writeFileBytes cwd p sums hhash hpath hcwd hp,
        List.map_map]
      rfl

/-! ## Canonical absolute paths and the join/split inverses -/

theorem isAbsL_cons (c : Char) (t : Str) : isAbsL (c :: t) = decide (c = '/') := rfl

theorem joinComps_cons₂ (c d : Str) (rest : List Str) :
    joinComps (c :: d :: rest) = c ++ '/' :: joinComps (d :: rest) := rfl

theorem joinComps_append (C D : List Str) (hC : C ≠ []) (hD : D ≠ []) :
    joinComps (C ++ D) = joinComps C ++ '/' :: joinComps D := by
  induction C with
  | nil => exact absurd rfl hC
  | cons c C' ih =>
      cases C' with
      | nil =>
          cases D with
          | nil => exact absurd rfl hD
          | cons d D' => rw [List.singleton_append, joinComps_cons₂]; rfl
      | cons c2 C'' =>
          rw [List.cons_append, List.cons_append, joinComps_cons₂ c c2 (C'' ++ D),
            show c2 :: (C'' ++ D) = (c2 :: C'') ++ D from rfl,
            ih (by simp), joinComps_cons₂ c c2 C'']
          simp

theorem joinComps_ne_nil (C : List Str) (hC : C ≠ [])
    (hcomp : ∀ comp ∈ C, comp ≠ []) : joinComps C ≠ [] := by
  cases C with
  | nil => exact absurd rfl hC
  | cons c rest =>
      cases rest with
      | nil => exact hcomp c (List.mem_cons_self c [])
      | cons d rest' =>
          rw [joinComps_cons₂]
          intro h
          exact hcomp c (List.mem_cons_self c _)
            (List.append_eq_nil.mp h).1

theorem splitChar_no_sep (d : Char) :
    ∀ l : Str, d ∉ l → splitChar d l = [l] := by
  intro l
  induction l with
  | nil => intro _; rfl
  | cons x rest ih =>
      intro h
      have hx : ¬x = d := fun e => h (e ▸ List.mem_cons_self x rest)
      rw [splitChar_cons_ne d x rest hx,
        ih (fun hm => h (List.mem_cons_of_mem x hm))]
      rfl

theorem splitChar_join_cons (t : Str) :
    ∀ c : Str, '/' ∉ c → splitChar '/' (c ++ '/' :: t) = c :: splitChar '/' t := by
  intro c
  induction c with
  | nil =>
      intro _
      rw [List.nil_append, splitChar_cons_sep '/' '/' t rfl]
  | cons x c' ih =>
      intro h
      have hx : ¬x = '/' := fun e => h (e ▸ List.mem_cons_self x c')
      rw [List.cons_append, splitChar_cons_ne '/' x _ hx,
        ih (fun hm => h (List.mem_cons_of_mem x hm))]
      rfl

theorem splitChar_joinComps :
    ∀ C : List Str, (∀ comp ∈ C, '/' ∉ comp) → C ≠ [] →
      splitChar '/' (joinComps C) = C := by
  intro C
  induction C with
  | nil => intro _ h; exact absurd rfl h
  | cons c rest ih =>
      intro hC _
      cases rest with
      | nil => exact splitChar_no_sep '/' c (hC c (List.mem_cons_self c []))
      | cons d rest' =>
          rw [joinComps_cons₂,
            splitChar_join_cons _ c (hC c (List.mem_cons_self c _)),
            ih (fun comp hm => hC comp (List.mem_cons_of_mem c hm)) (by simp)]

/-! ## Running the clean stack over structured component lists -/

theorem cleanCore_append (rooted : Bool) :
    ∀ (X Y acc : List Str),
      cleanCore rooted acc (X ++ Y) =
        cleanCore rooted ((cleanCore rooted acc X).reverse) Y := by
  intro X
  induction X with
  | nil =>
      intro Y acc
      rw [List.nil_append, show cleanCore rooted acc [] = acc.reverse from rfl,
        List.reverse_reverse]
  | cons c X' ih =>
      intro Y acc
      rw [List.cons_append, cleanCore_cons_eq, cleanCore_cons_eq]
      by_cases h1 : c = [] ∨ c = ['.']
      · rw [if_pos h1, if_pos h1, ih]
      · rw [if_neg h1, if_neg h1]
        by_cases h2 : c = ['.', '.']
        · rw [if_pos h2, if_pos h2, ih]
        · rw [if_neg h2, if_neg h2, ih]

theorem cleanCore_plain (rooted : Bool) :
    ∀ (X acc : List Str), (∀ comp ∈ X, plainComp comp) →
      cleanCore rooted acc X = acc.reverse ++ X := by
  intro X
  induction X with
  | nil => intro acc _; simp [show cleanCore rooted acc [] = acc.reverse from rfl]
  | cons c X' ih =>
      intro acc hX
      obtain ⟨hne, _, hdot, hdd⟩ := hX c (List.mem_cons_self c X')
      rw [cleanCore_cons_eq, if_neg (by
          intro h
          rcases h with h | h
          · exact hne h
          · exact hdot h),
        if_neg hdd, ih (c :: acc) (fun comp hm => hX comp (List.mem_cons_of_mem c hm))]
      simp

theorem cleanCore_pops :
    ∀ (Z W Y : List Str), (∀ z ∈ Z, z ≠ ['.', '.']) →
      cleanCore true (Z ++ W) (List.replicate Z.length ['.', '.'] ++ Y) =
        cleanCore true W Y := by
  intro Z
  induction Z with
  | nil => intro W Y _; rfl
  | cons z Z' ih =>
      intro W Y hZ
      rw [List.length_cons, List.replicate_succ, List.cons_append,
        List.cons_append, cleanCore_cons_eq,
        if_neg (by decide), if_pos rfl, popStack_cons,
        if_neg (hZ z (List.mem_cons_self z Z')),
        ih W Y (fun x hm => hZ x (List.mem_cons_of_mem z hm))]

theorem cleanL_canon (C : List Str) (hC : ∀ comp ∈ C, plainComp comp) :
    cleanL ('/' :: joinComps C) = '/' :: joinComps C := by
  cases hC0 : C with
  | nil => decide
  | cons c rest =>
      rw [← hC0]
      have hCne : C ≠ [] := by rw [hC0]; simp
      have hnosep : ∀ comp ∈ C, '/' ∉ comp := fun comp hm => (hC comp hm).2.1
      have hp : ('/' :: joinComps C : Str) ≠ [] := by simp
      have habs : isAbsL ('/' :: joinComps C) = true := by
        rw [isAbsL_cons]
        simp
      rw [cleanL_eq_of_ne_nil _ hp, habs, if_pos rfl,
        splitChar_cons_sep '/' '/' _ rfl, splitChar_joinComps C hnosep hCne,
        cleanCore_cons_eq, if_pos (Or.inl rfl), cleanCore_plain true C [] hC]
      rfl

theorem relComps_canon (C : List Str) (hC : ∀ comp ∈ C, plainComp comp) :
    relComps ('/' :: joinComps C) = C := by
  unfold relComps
  rw [show isAbsL ('/' :: joinComps C) = true by rw [isAbsL_cons]; simp]
  simp only [if_true, List.drop_succ_cons, List.drop_zero]
  cases hC0 : C with
  | nil => simp [joinComps]
  | cons c rest =>
      rw [← hC0]
      have hCne : C ≠ [] := by rw [hC0]; simp
      rw [if_neg (joinComps_ne_nil C hCne (fun comp hm => (hC comp hm).1))]
      exact splitChar_joinComps C (fun comp hm => (hC comp hm).2.1) hCne

/-! ## Stripping the common prefix -/

theorem stripCommon_cons (a b : Str) (as bs : List Str) :
    stripCommon (a :: as) (b :: bs) =
      if a = b then stripCommon as bs else (a :: as, b :: bs) := rfl

theorem stripCommon_decomp :
    ∀ (as bs ar br : List Str), stripCommon as bs = (ar, br) →
      ∃ common, as = common ++ ar ∧ bs = common ++ br := by
  intro as
  induction as with
  | nil =>
      intro bs ar br h
      cases bs with
      | nil =>
          obtain ⟨rfl, rfl⟩ := Prod.mk.injEq _ _ _ _ ▸ h
          exact ⟨[], by simp, by simp⟩
      | cons b bs' =>
          rw [show stripCommon [] (b :: bs') = ([], b :: bs') from rfl] at h
          obtain ⟨h1, h2⟩ := Prod.mk.injEq _ _ _ _ ▸ h
          exact ⟨[], by simp [← h1], by simp [← h2]⟩
  | cons a as' ih =>
      intro bs ar br h
      cases bs with
      | nil =>
          rw [show stripCommon (a :: as') [] = (a :: as', []) from rfl] at h
          obtain ⟨h1, h2⟩ := Prod.mk.injEq _ _ _ _ ▸ h
          exact ⟨[], by simp [← h1], by simp [← h2]⟩
      | cons b bs' =>
          rw [stripCommon_cons] at h
          by_cases hab : a = b
          · rw [if_pos hab] at h
            obtain ⟨common, hc1, hc2⟩ := ih bs' ar br h
            exact ⟨a :: common, by simp [hc1], by simp [hab, hc2]⟩
          · rw [if_neg hab] at h
            obtain ⟨h1, h2⟩ := Prod.mk.injEq _ _ _ _ ▸ h
            exact ⟨[], by simp [← h1], by simp [← h2]⟩

theorem stripCommon_both_nil (as bs : List Str)
    (h : stripCommon as bs = ([], [])) : as = bs := by
  obtain ⟨common, h1, h2⟩ := stripCommon_decomp as bs [] [] h
  rw [h1, h2]

/-! ## Occurrences of a two-character separator -/

theorem hasPair_cons_ne_head (x y c : Char) (t : Str) (h : c ≠ x) :
    hasPair x y (c :: t) = hasPair x y t := by
  cases t with
  | nil => rfl
  | cons d t' =>
      rw [show hasPair x y (c :: d :: t') =
        ((c = x && d = y) || hasPair x y (d :: t')) from rfl]
      simp [h]

theorem hasPair_append (x y : Char) :
    ∀ (a b : Str),
      hasPair x y (a ++ b) =
        (hasPair x y a || hasPair x y b ||
          (decide (a.getLast? = some x) && decide (b.head? = some y))) := by
  intro a
  induction a with
  | nil => intro b; simp [hasPair]
  | cons c a' ih =>
      intro b
      cases a' with
      | nil =>
          cases b with
          | nil => simp [hasPair]
          | cons e t =>
              rw [List.singleton_append,
                show hasPair x y (c :: e :: t) =
                  ((c = x && e = y) || hasPair x y (e :: t)) from rfl]
              simp [hasPair]
              by_cases hc : c = x <;> by_cases he : e = y <;> simp [hc, he]
      | cons d a'' =>
          rw [List.cons_append,
            show hasPair x y (c :: (d :: a'' ++ b)) =
              ((c = x && d = y) || hasPair x y (d :: a'' ++ b)) from
              (by rw [List.cons_append] ; rfl),
            ih b,
            show hasPair x y (c :: d :: a'') =
              ((c = x && d = y) || hasPair x y (d :: a'')) from rfl]
          have hlast : (c :: d :: a'').getLast? = (d :: a'').getLast? := by
            rw [List.getLast?_cons_cons]
          rw [hlast]
          simp [Bool.or_assoc]

theorem hasPair_joinComps (x y : Char) (hx : x ≠ '/') (hy : y ≠ '/') :
    ∀ C : List Str, hasPair x y (joinComps C) = C.any (hasPair x y) := by
  intro C
  induction C with
  | nil => simp [joinComps, hasPair]
  | cons c rest ih =>
      cases rest with
      | nil => simp [joinComps]
      | cons d rest' =>
          rw [joinComps_cons₂, hasPair_append,
            hasPair_cons_ne_head x y '/' _ (fun e => hx e.symm), ih]
          have hhead : decide ((('/' :: joinComps (d :: rest')).head? = some y)) = false := by
            simp
            exact fun e => hy e.symm
          rw [hhead, Bool.and_false, Bool.or_false, List.any_cons, List.any_cons,
            List.any_cons]

theorem breakOn_pair_none (x y : Char) (hxy : x ≠ y) :
    ∀ l : Str, hasPair x y l = false → breakOn [x, y] l = none := by
  intro l
  induction l with
  | nil => intro _; rfl
  | cons c rest ih =>
      intro h
      rw [breakOn_cons]
      rw [if_neg (by
        intro hp
        obtain ⟨t, ht⟩ := List.isPrefixOf_iff_prefix.mp hp
        rw [show ([x, y] : Str) ++ t = x :: y :: t from rfl] at ht
        have hc : c = x := by
          have := congrArg List.head? ht
          simpa using this.symm
        have hrest : rest = y :: t := by
          have := congrArg List.tail ht
          simpa using this.symm
        rw [hc, hrest] at h
        rw [show hasPair x y (x :: y :: t) =
          ((x = x && y = y) || hasPair x y (y :: t)) from rfl] at h
        simp at h)]
      have hrest : hasPair x y rest = false := by
        cases rest with
        | nil => rfl
        | cons d t =>
            rw [show hasPair x y (c :: d :: t) =
              ((c = x && d = y) || hasPair x y (d :: t)) from rfl] at h
            exact (Bool.or_eq_false_iff.mp h).2
      rw [ih hrest]

/-! ## `filepath.Rel` then `filepath.Join` cancel on canonical paths -/

theorem relPath_canon (D T : List Str)
    (hD : ∀ comp ∈ D, plainComp comp) (hT : ∀ comp ∈ T, plainComp comp)
    (hne : ('/' :: joinComps T : Str) ≠ '/' :: joinComps D) :
    relPath ('/' :: joinComps D) ('/' :: joinComps T) =
      some (joinComps (List.replicate (stripCommon D T).1.length ['.', '.'] ++
        (stripCommon D T).2)) := by
  simp only [relPath]
  rw [cleanL_canon D hD, cleanL_canon T hT, if_neg hne]
  rw [if_neg (show ¬('/' :: joinComps D : Str) = ['.'] by simp)]
  rw [if_neg (by simp [isAbsL_cons])]
  rw [relComps_canon D hD, relComps_canon T hT]
  rw [if_neg (by
    cases hdr : (stripCommon D T).1 with
    | nil => simp
    | cons z zs =>
        obtain ⟨common, hD1, _⟩ :=
          stripCommon_decomp D T (stripCommon D T).1 (stripCommon D T).2
            Prod.mk.eta.symm
        have hz : z ∈ D := by
          rw [hD1, hdr]
          exact List.mem_append_right common (List.mem_cons_self z zs)
        simp only [hdr, List.headD_cons]
        exact (hD z hz).2.2.2)]
  by_cases hr1 : (stripCommon D T).1 = []
  · rw [if_neg (by simp [hr1]), hr1]
    simp
  · rw [if_pos hr1]

theorem isAbsL_joinComps_false (E : List Str)
    (hE : ∀ comp ∈ E, comp ≠ [] ∧ '/' ∉ comp) (hEne : E ≠ []) :
    isAbsL (joinComps E) = false := by
  cases E with
  | nil => exact absurd rfl hEne
  | cons e rest =>
      obtain ⟨hene, hsl⟩ := hE e (List.mem_cons_self e rest)
      cases he : e with
      | nil => exact absurd he hene
      | cons c t =>
          have hc : ¬c = '/' := fun h0 =>
            hsl (he ▸ (h0 ▸ List.mem_cons_self c t))
          cases rest with
          | nil =>
              rw [show joinComps [c :: t] = c :: t from rfl, isAbsL_cons]
              simp [hc]
          | cons e2 rest2 =>
              rw [joinComps_cons₂, List.cons_append, isAbsL_cons]
              simp [hc]

theorem joinPath_canon_dot (D : List Str) (hD : ∀ comp ∈ D, plainComp comp) :
    joinPath ('/' :: joinComps D) ['.'] = '/' :: joinComps D := by
  cases hD0 : D with
  | nil => decide
  | cons d rest =>
      rw [← hD0]
      have hDne : D ≠ [] := by rw [hD0]; simp
      have hnosep : ∀ comp ∈ D, '/' ∉ comp := fun comp hm => (hD comp hm).2.1
      unfold joinPath
      rw [if_neg (by simp), if_neg (by simp), if_neg (by simp)]
      have hjoin : (('/' :: joinComps D : Str) ++ '/' :: ['.']) =
          '/' :: joinComps (D ++ [['.']]) := by
        rw [joinComps_append D [['.']] hDne (by simp)]
        rfl
      rw [hjoin]
      have hcomps : ∀ comp ∈ D ++ [['.']], '/' ∉ comp := by
        intro comp hm
        rcases List.mem_append.mp hm with hm | hm
        · exact hnosep comp hm
        · rw [List.mem_singleton.mp hm]
          simp
      have habs : isAbsL ('/' :: joinComps (D ++ [['.']])) = true := by
        rw [isAbsL_cons]
        simp
      rw [cleanL_eq_of_ne_nil _ (by simp), habs, if_pos rfl,
        splitChar_cons_sep '/' '/' _ rfl,
        splitChar_joinComps (D ++ [['.']]) hcomps (by simp),
        cleanCore_cons_eq, if_pos (Or.inl rfl),
        cleanCore_append true D [['.']] [],
        cleanCore_plain true D [] hD]
      rw [show (([] : List Str).reverse ++ D : List Str).reverse = D.reverse by simp]
      rw [show cleanCore true D.reverse [['.']] =
        cleanCore true D.reverse [] from by
          rw [cleanCore_cons_eq, if_pos (Or.inr rfl)]]
      rw [show cleanCore true D.reverse [] = D.reverse.reverse from rfl]
      simp

theorem joinPath_rel_cancel (D T : List Str)
    (hD : ∀ comp ∈ D, plainComp comp) (hT : ∀ comp ∈ T, plainComp comp)
    (hne : D ≠ T) :
    joinPath ('/' :: joinComps D)
      (joinComps (List.replicate (stripCommon D T).1.length ['.', '.'] ++
        (stripCommon D T).2)) = '/' :: joinComps T := by
  obtain ⟨common, hD1, hT1⟩ :=
    stripCommon_decomp D T (stripCommon D T).1 (stripCommon D T).2 Prod.mk.eta.symm
  set Drem := (stripCommon D T).1 with hDrem
  set Trem := (stripCommon D T).2 with hTrem
  set E := List.replicate Drem.length ['.', '.'] ++ Trem with hE
  have hTremT : ∀ comp ∈ Trem, comp ∈ T := by
    intro comp hm
    rw [hT1]
    exact List.mem_append_right common hm
  have hEcomp : ∀ comp ∈ E, comp ≠ [] ∧ '/' ∉ comp := by
    intro comp hm
    rcases List.mem_append.mp hm with hm | hm
    · rw [List.eq_of_mem_replicate hm]
      exact ⟨by simp, by simp⟩
    · have := hT comp (hTremT comp hm)
      exact ⟨this.1, this.2.1⟩
  have hEne : E ≠ [] := by
    intro h0
    rcases List.append_eq_nil.mp h0 with ⟨h1, h2⟩
    have hd0 : Drem = [] := by
      have := congrArg List.length h1
      simpa [List.length_replicate] using List.eq_nil_of_length_eq_zero (by
        simpa using this)
    exact hne (stripCommon_both_nil D T (by
      rw [← hDrem, ← hTrem] at *
      rw [show stripCommon D T = (Drem, Trem) from Prod.mk.eta.symm, hd0, h2]))
  have hjE : joinComps E ≠ [] :=
    joinComps_ne_nil E hEne (fun comp hm => (hEcomp comp hm).1)
  unfold joinPath
  rw [if_neg (by simp), if_neg (by simp), if_neg (by simp [hjE])]
  by_cases hD0 : D = []
  · have hcommon : common = [] := by
      rcases List.append_eq_nil.mp (hD0 ▸ hD1.symm) with ⟨h1, _⟩
      exact h1
    have hDrem0 : Drem = [] := by
      rcases List.append_eq_nil.mp (hD0 ▸ hD1.symm) with ⟨_, h2⟩
      exact h2
    have hTT : T = Trem := by rw [hT1, hcommon]; simp
    have hTne : T ≠ [] := fun h0 => hne (by rw [hD0, h0])
    have hEeq : E = T := by rw [hE, hDrem0, hTT]; simp
    rw [hD0]
    rw [show joinComps ([] : List Str) = ([] : Str) from rfl]
    rw [show (('/' :: [] : Str) ++ '/' :: joinComps E) = '/' :: '/' :: joinComps E
      from rfl]
    have hnosepT : ∀ comp ∈ T, '/' ∉ comp := fun comp hm => (hT comp hm).2.1
    rw [hEeq]
    rw [cleanL_eq_of_ne_nil _ (by simp), show isAbsL ('/' :: '/' :: joinComps T) = true
      from by rw [isAbsL_cons]; simp, if_pos rfl,
      splitChar_cons_sep '/' '/' _ rfl, splitChar_cons_sep '/' '/' _ rfl,
      splitChar_joinComps T hnosepT hTne,
      cleanCore_cons_eq, if_pos (Or.inl rfl),
      cleanCore_cons_eq, if_pos (Or.inl rfl),
      cleanCore_plain true T [] hT]
    rfl
  · have hjoin : (('/' :: joinComps D : Str) ++ '/' :: joinComps E) =
        '/' :: joinComps (D ++ E) := by
      rw [joinComps_append D E hD0 hEne]
      rfl
    rw [hjoin]
    have hcomps : ∀ comp ∈ D ++ E, '/' ∉ comp := by
      intro comp hm
      rcases List.mem_append.mp hm with hm | hm
      · exact (hD comp hm).2.1
      · exact (hEcomp comp hm).2
    have habs : isAbsL ('/' :: joinComps (D ++ E)) = true := by
      rw [isAbsL_cons]
      simp
    rw [cleanL_eq_of_ne_nil _ (by simp), habs, if_pos rfl,
      splitChar_cons_sep '/' '/' _ rfl,
      splitChar_joinComps (D ++ E) hcomps (by simp [hD0]),
      cleanCore_cons_eq, if_pos (Or.inl rfl),
      cleanCore_append true D E [],
      cleanCore_plain true D [] hD]
    rw [show (([] : List Str).reverse ++ D : List Str).reverse = D.reverse by simp]
    rw [hE, hD1]
    rw [show (common ++ Drem : List Str).reverse = Drem.reverse ++ common.reverse by
      rw [List.reverse_append]]
    rw [show Drem.length = Drem.reverse.length by rw [List.length_reverse]]
    rw [cleanCore_pops Drem.reverse common.reverse Trem (by
      intro z hm
      have hzD : z ∈ D := by
        rw [hD1]
        exact List.mem_append_right common (List.mem_reverse.mp hm)
      exact (hD z hzD).2.2.2)]
    rw [cleanCore_plain true Trem common.reverse (fun comp hm =>
      hT comp (hTremT comp hm))]
    rw [List.reverse_reverse, ← hT1]

/-! ## Canonical shape of cleaned absolute paths -/

theorem cleanCore_rooted_plain :
    ∀ (comps acc : List Str), (∀ c ∈ comps, '/' ∉ c) →
      (∀ a ∈ acc, plainComp a) →
      ∀ out ∈ cleanCore true acc comps, plainComp out := by
  intro comps
  induction comps with
  | nil =>
      intro acc _ hacc out hout
      rw [show cleanCore true acc [] = acc.reverse from rfl] at hout
      exact hacc out (List.mem_reverse.mp hout)
  | cons c rest ih =>
      intro acc hsep hacc out hout
      rw [cleanCore_cons_eq] at hout
      by_cases h1 : c = [] ∨ c = ['.']
      · rw [if_pos h1] at hout
        exact ih acc (fun x hx => hsep x (List.mem_cons_of_mem c hx)) hacc out hout
      · rw [if_neg h1] at hout
        by_cases h2 : c = ['.', '.']
        · rw [if_pos h2] at hout
          refine ih _ (fun x hx => hsep x (List.mem_cons_of_mem c hx)) ?_ out hout
          intro a ha
          cases hacc0 : acc with
          | nil =>
              rw [hacc0, popStack_nil, if_pos rfl] at ha
              simp at ha
          | cons top acc' =>
              rw [hacc0, popStack_cons,
                if_neg (hacc top (hacc0 ▸ List.mem_cons_self top acc')).2.2.2] at ha
              exact hacc a (hacc0 ▸ List.mem_cons_of_mem top ha)
        · rw [if_neg h2] at hout
          refine ih _ (fun x hx => hsep x (List.mem_cons_of_mem c hx)) ?_ out hout
          intro a ha
          rcases List.mem_cons.mp ha with rfl | ha
          · refine ⟨?_, hsep a (List.mem_cons_self a rest), ?_, h2⟩
            · intro h0
              exact h1 (Or.inl h0)
            · intro h0
              exact h1 (Or.inr h0)
          · exact hacc a ha

theorem isAbsL_head (l : Str) : isAbsL l = true ↔ l.head? = some '/' := by
  cases l with
  | nil => simp [isAbsL]
  | cons c t => rw [isAbsL_cons]; simp

theorem canonAbs_of_clean (p : Str) (habs : isAbsL p = true)
    (hfix : cleanL p = p) :
    ∃ C, (∀ comp ∈ C, plainComp comp) ∧ p = '/' :: joinComps C := by
  have hp : p ≠ [] := by
    intro h0
    rw [h0] at habs
    simp [isAbsL] at habs
  refine ⟨cleanCore true [] (splitChar '/' p), ?_, ?_⟩
  · exact cleanCore_rooted_plain (splitChar '/' p) []
      (fun c hc => splitChar_not_sep '/' p c hc) (by simp)
  · conv_lhs => rw [← hfix]
    rw [cleanL_eq_of_ne_nil p hp, habs, if_pos rfl]

theorem upToLastSlash_abs (p : Str) (habs : isAbsL p = true) :
    upToLastSlash p ≠ [] ∧ isAbsL (upToLastSlash p) = true := by
  have hhead : p.head? = some '/' := (isAbsL_head p).mp habs
  have hp : p ≠ [] := by
    intro h0
    rw [h0] at hhead
    simp at hhead
  have hlast : p.reverse.getLast? = some '/' := by
    rw [List.getLast?_reverse]
    exact hhead
  have hmem : '/' ∈ p.reverse := by
    rw [List.mem_reverse]
    cases hp0 : p with
    | nil => exact absurd hp0 hp
    | cons c t =>
        rw [hp0] at hhead
        simp at hhead
        rw [hhead]
        exact List.mem_cons_self '/' t
  have hdw : p.reverse.dropWhile (fun c => c ≠ '/') ≠ [] := by
    intro h0
    have : ∀ c ∈ p.reverse, (fun c : Char => decide (c ≠ '/')) c = true := by
      rw [← List.takeWhile_eq_self_iff]
      rw [show p.reverse.takeWhile (fun c : Char => decide (c ≠ '/')) = p.reverse from by
        conv_rhs => rw [← List.takeWhile_append_dropWhile
          (p := fun c : Char => decide (c ≠ '/')) (l := p.reverse)]
        rw [h0, List.append_nil]]
    have := this '/' hmem
    simp at this
  have hgl : (p.reverse.dropWhile (fun c => c ≠ '/')).getLast? = some '/' := by
    conv_rhs => rw [← hlast]
    conv_rhs => rw [← List.takeWhile_append_dropWhile
      (p := fun c : Char => decide (c ≠ '/')) (l := p.reverse)]
    rw [List.getLast?_append_of_ne_nil _ hdw]
  constructor
  · unfold upToLastSlash
    intro h0
    rw [List.reverse_eq_nil_iff] at h0
    exact hdw h0
  · rw [isAbsL_head]
    unfold upToLastSlash
    rw [List.head?_reverse]
    exact hgl

theorem dirPath_canon (p : Str) (habs : isAbsL p = true) :
    ∃ D, (∀ comp ∈ D, plainComp comp) ∧ dirPath p = '/' :: joinComps D := by
  obtain ⟨hne, habsu⟩ := upToLastSlash_abs p habs
  refine ⟨cleanCore true [] (splitChar '/' (upToLastSlash p)), ?_, ?_⟩
  · exact cleanCore_rooted_plain _ []
      (fun c hc => splitChar_not_sep '/' _ c hc) (by simp)
  · unfold dirPath
    rw [cleanL_eq_of_ne_nil _ hne, habsu, if_pos rfl]

/-! ## The per-entry path round trip on canonical inputs -/

theorem resolve_roundtrip (cwd : Str) (D T : List Str)
    (hD : ∀ comp ∈ D, plainComp comp) (hT : ∀ comp ∈ T, plainComp comp)
    (hstar : hasPair ' ' '*' ('/' :: joinComps T) = false) :
    (if isAbsL (upToStar (relOrAbs cwd ('/' :: joinComps D) ('/' :: joinComps T)))
      then upToStar (relOrAbs cwd ('/' :: joinComps D) ('/' :: joinComps T))
      else joinPath ('/' :: joinComps D)
        (upToStar (relOrAbs cwd ('/' :: joinComps D) ('/' :: joinComps T)))) =
      '/' :: joinComps T := by
  by_cases heq : ('/' :: joinComps T : Str) = '/' :: joinComps D
  · have hrel : relPath ('/' :: joinComps D) ('/' :: joinComps T) = some ['.'] := by
      simp only [relPath]
      rw [cleanL_canon D hD, cleanL_canon T hT, if_pos heq]
    have hro : relOrAbs cwd ('/' :: joinComps D) ('/' :: joinComps T) = ['.'] := by
      unfold relOrAbs
      rw [hrel]
    rw [if_neg (show ¬isAbsL (upToStar (relOrAbs cwd ('/' :: joinComps D)
        ('/' :: joinComps T))) = true by rw [hro]; decide)]
    rw [hro, show upToStar ['.'] = ['.'] from rfl, joinPath_canon_dot D hD]
    exact heq.symm
  · have hne' : D ≠ T := fun h0 => heq (by rw [h0])
    have hro : relOrAbs cwd ('/' :: joinComps D) ('/' :: joinComps T) =
        joinComps (List.replicate (stripCommon D T).1.length (['.', '.'] : Str) ++
          (stripCommon D T).2) := by
      unfold relOrAbs
      rw [relPath_canon D T hD hT heq]
    obtain ⟨common, hDdec, hTdec⟩ := stripCommon_decomp D T
      (stripCommon D T).1 (stripCommon D T).2 Prod.mk.eta.symm
    have hTstar : ∀ comp ∈ T, hasPair ' ' '*' comp = false := by
      have h1 : T.any (hasPair ' ' '*') = false := by
        rw [← hasPair_joinComps ' ' '*' (by decide) (by decide)]
        rw [← hasPair_cons_ne_head ' ' '*' '/' (joinComps T) (by decide)]
        exact hstar
      intro comp hcomp
      cases hb : hasPair ' ' '*' comp with
      | false => rfl
      | true =>
          exact absurd (List.any_eq_true.mpr ⟨comp, hcomp, hb⟩) (by rw [h1]; simp)
    have hE : ∀ comp ∈ (List.replicate (stripCommon D T).1.length
        (['.', '.'] : Str) ++ (stripCommon D T).2), comp ≠ [] ∧ '/' ∉ comp := by
      intro comp hcomp
      rcases List.mem_append.mp hcomp with h0 | h0
      · rw [List.eq_of_mem_replicate h0]
        exact ⟨by simp, by decide⟩
      · have hmemT : comp ∈ T := by
          rw [hTdec]
          exact List.mem_append_right common h0
        exact ⟨(hT comp hmemT).1, (hT comp hmemT).2.1⟩
    have hEne : (List.replicate (stripCommon D T).1.length
        (['.', '.'] : Str) ++ (stripCommon D T).2) ≠ [] := by
      intro h0
      rcases List.append_eq_nil.mp h0 with ⟨h1, h2⟩
      have hd : (stripCommon D T).1 = [] := by
        have hlen := congrArg List.length h1
        simp at hlen
        exact hlen
      exact hne' (stripCommon_both_nil D T (Prod.ext_iff.mpr ⟨hd, h2⟩))
    have hstarR : hasPair ' ' '*'
        (joinComps (List.replicate (stripCommon D T).1.length
          (['.', '.'] : Str) ++ (stripCommon D T).2)) = false := by
      rw [hasPair_joinComps ' ' '*' (by decide) (by decide)]
      rw [List.any_eq_false]
      intro comp hcomp
      rcases List.mem_append.mp hcomp with h0 | h0
      · rw [List.eq_of_mem_replicate h0]
        decide
      · have hmemT : comp ∈ T := by
          rw [hTdec]
          exact List.mem_append_right common h0
        simp [hTstar comp hmemT]
    have hups : upToStar
        (joinComps (List.replicate (stripCommon D T).1.length
          (['.', '.'] : Str) ++ (stripCommon D T).2)) =
        joinComps (List.replicate (stripCommon D T).1.length
          (['.', '.'] : Str) ++ (stripCommon D T).2) := by
      unfold upToStar
      rw [breakOn_pair_none ' ' '*' (by decide) _ hstarR]
    have habsr : isAbsL
        (joinComps (List.replicate (stripCommon D T).1.length
          (['.', '.'] : Str) ++ (stripCommon D T).2)) = false :=
      isAbsL_joinComps_false _ hE hEne
    rw [if_neg (show ¬isAbsL (upToStar (relOrAbs cwd ('/' :: joinComps D)
        ('/' :: joinComps T))) = true by rw [hro, hups, habsr]; simp)]
    rw [hro, hups]
    exact joinPath_rel_cancel D T hD hT hne'

/-! ## C1: the `--basic` flag of verify -/

/-- C1 (code_bug evidence): evaluating `verifyCommand` at a manifest whose
one entry names the existing, readable file `f` with a stale recorded
hash: with `--basic` set the entry is still re-hashed and reported
`Invalid` (the flag is parsed but never read, so the run equals the run
without the flag), although the claim says an existing readable file is
never reported as failing under `--basic`. -/
theorem c1_basic_flag_ignored_eval :
    verifyCommandFile true mdZero (chars "m.md5") (some lineStale) =
        ([ReportLine.er (chars "m.md5"), ReportLine.invalid (chars "f")], 0) ∧
      verifyCommandFile true mdZero (chars "m.md5") (some lineStale) =
        verifyCommandFile false mdZero (chars "m.md5") (some lineStale) := by
  decide

/-! ## C2: exit status of verify -/

/-- C2 (counterexample): a directory run over two manifests where the first
manifest's entry is Mismatched: verification continues into the second
manifest, but the process exit status is 0, not nonzero as the claim
states. -/
theorem c2_nonzero_exit_counterexample :
    verifyCommandDir false mdZero
        [(chars "a.md5", lineStale), (chars "b.md5", lineFresh)] =
      ([ReportLine.er (chars "a.md5"), ReportLine.invalid (chars "f"),
        ReportLine.okManifest (chars "b.md5")], 0) := by
  decide

/-! ## C6: the valid-line pattern and the recorded path -/

/-- C6 (counterexample): the line `<32 hex> *a *b` is accepted as a valid
entry, but the recorded path is `a` — the remainder only up to the next
`" *"` — not the entire remainder `a *b` (which is what its resolution
against the manifest directory would have produced). -/
theorem c6_path_truncated_counterexample :
    isValidLine lineStarPath = true ∧
      (readFileSums (chars "m.md5") lineStarPath).map (fun c => c.Path) =
        [chars "a"] ∧
      joinPath (dirPath (chars "m.md5")) (chars "a *b") = chars "a *b" := by
  decide

/-! ## C7: codec round-trip -/

/-- C7 (counterexample): the ChecksumSet holding the single entry
`(000…0, "/d/a *b")` — unique resolved paths — serialized to
`/d/m.md5` and parsed back does not reproduce its resolved-path→hash
pairs: the written line `000…0 *a *b` parses to the path `/d/a`. -/
theorem c7_roundtrip_counterexample :
    ¬ ((readFileSums (chars "/d/m.md5")
          (writeFileBytes (chars "/w") [entryStarPath] (chars "/d/m.md5"))).map
          (fun c => (c.Path, c.Hash))).Perm
        ([entryStarPath].map (fun c => (c.Path, c.Hash))) := by
  decide

/-- C7 (amended): for every ChecksumSet `S` with pairwise distinct resolved
paths, each path a cleaned absolute path free of newlines, carriage returns
and the substring `" *"`, each hash 32 hex characters, and every output
path `p` with an absolute directory, parsing the bytes `writeFile` produces
for `S` at `p` (with `p`'s directory as manifest directory) returns exactly
the sorted entries of `S` — in particular the same resolved-path→hash pairs
as `S`, up to permutation. -/
theorem c7_roundtrip_amended (cwd p : Str) (S : List Checksum)
    (habs : isAbsL p = true)
    (hSpath : ∀ c ∈ S, isAbsL c.Path = true ∧ cleanL c.Path = c.Path ∧
      hasPair ' ' '*' c.Path = false ∧ ∀ ch ∈ c.Path, ch ≠ '\n' ∧ ch ≠ '\r')
    (hhash : ∀ c ∈ S, c.Hash.length = 32 ∧ ∀ ch ∈ c.Hash, isHexChar ch = true)
    (hcwd : ∀ ch ∈ cwd, ch ≠ '\n' ∧ ch ≠ '\r')
    (hp : ∀ ch ∈ p, ch ≠ '\n' ∧ ch ≠ '\r')
    (huniq : S.Pairwise (fun a b => a.Path ≠ b.Path)) :
    readFileSums p (writeFileBytes cwd S p) = List.insertionSort leC S ∧
      ((readFileSums p (writeFileBytes cwd S p)).map
          (fun c => (c.Path, c.Hash))).Perm
        (S.map (fun c => (c.Path, c.Hash))) := by
  obtain ⟨D, hDplain, hdirD⟩ := dirPath_canon p habs
  have hmap : readFileSums p (writeFileBytes cwd S p) =
      List.insertionSort leC S := by
    rw [readFileSums_writeFileBytes cwd p S hhash
      (fun c hc => (hSpath c hc).2.2.2) hcwd hp]
    have hid : ∀ c ∈ List.insertionSort leC S,
        (⟨c.Hash,
          if isAbsL (upToStar (relOrAbs cwd (dirPath p) c.Path))
          then upToStar (relOrAbs cwd (dirPath p) c.Path)
          else joinPath (dirPath p)
            (upToStar (relOrAbs cwd (dirPath p) c.Path))⟩ : Checksum) = c := by
      intro c hc
      have hcS : c ∈ S := (List.perm_insertionSort leC S).mem_iff.mp hc
      obtain ⟨hcabs, hcfix, hcstar, _⟩ := hSpath c hcS
      obtain ⟨T, hTplain, hpathT⟩ := canonAbs_of_clean c.Path hcabs hcfix
      rw [hdirD, hpathT,
        resolve_roundtrip cwd D T hDplain hTplain (hpathT ▸ hcstar), ← hpathT]
    calc (List.insertionSort leC S).map
          (fun c => (⟨c.Hash,
            if isAbsL (upToStar (relOrAbs cwd (dirPath p) c.Path))
            then upToStar (relOrAbs cwd (dirPath p) c.Path)
            else joinPath (dirPath p)
              (upToStar (relOrAbs cwd (dirPath p) c.Path))⟩ : Checksum))
        = (List.insertionSort leC S).map (fun c => c) :=
          List.map_congr_left hid
      _ = List.insertionSort leC S := List.map_id' _
  refine ⟨hmap, ?_⟩
  rw [hmap]
  exact (List.perm_insertionSort leC S).map _

/-- C7 (amended, witness): the singleton set `{(111…1, "/d/A")}` written to
`/d/m.md5` from working directory `/w` round-trips exactly. -/
theorem c7_roundtrip_amended_witness :
    readFileSums (chars "/d/m.md5")
        (writeFileBytes (chars "/w") [entryUpperA] (chars "/d/m.md5")) =
      List.insertionSort leC [entryUpperA] ∧
    ((readFileSums (chars "/d/m.md5")
        (writeFileBytes (chars "/w") [entryUpperA] (chars "/d/m.md5"))).map
        (fun c => (c.Path, c.Hash))).Perm
      ([entryUpperA].map (fun c => (c.Path, c.Hash))) :=
  c7_roundtrip_amended (chars "/w") (chars "/d/m.md5") [entryUpperA]
    (by decide) (by decide) (by decide) (by decide) (by decide) (by decide)

/-! ## C8: serialization determinism -/

/-- C8 (counterexample): the two orderings of the ChecksumSet with entries
at paths `/d/A` and `/d/a` — distinct paths that agree after
lowercasing, so `Checksums.Less` orders them both ways false — serialize
to different bytes. -/
theorem c8_determinism_counterexample :
    ([entryUpperA, entryLowerA].Perm [entryLowerA, entryUpperA]) ∧
      writeFileBytes (chars "/w") [entryUpperA, entryLowerA] (chars "/d/m.md5") ≠
        writeFileBytes (chars "/w") [entryLowerA, entryUpperA] (chars "/d/m.md5") := by
  decide

/-! ## C3: update never recomputes an existing entry -/

/-- C3: when `updateCommand` reconciles, every path present both in the
scanned source paths and as a key of the loaded target set keeps its
recorded hash unchanged in the resulting set, and is never handed to the
hasher (the `hashed` component lists exactly the paths `generateMd5` was
called on); a hash is computed only for source paths that are not already
keys of the target set.  The file content plays no role: the hasher is
universally quantified. -/
theorem c3_update_never_recomputes (md5 : Str → Option (List Nat)) (del : Bool)
    (src : List Str) (tgt : List (Str × Checksum))
    (m : List (Str × Checksum)) (hashed : List Str)
    (heq : updateMaps md5 del src tgt = some (m, hashed)) :
    (∀ p c, p ∈ src → mapLookup tgt p = some c →
      mapLookup m p = some c ∧ p ∉ hashed) ∧
    (∀ p, p ∈ hashed → p ∈ src ∧ mapLookup tgt p = none) := by
  unfold updateMaps at heq
  set tgt1 := if del then tgt.filter (fun kv => src.contains kv.1) else tgt with htgt1
  obtain ⟨hv, hh⟩ := updateFold_char md5 src tgt1 [] m hashed heq
  have hlook : ∀ p, p ∈ src → mapLookup tgt1 p = mapLookup tgt p := by
    intro p hp
    rw [htgt1]
    by_cases hdel : del
    · simp only [hdel, if_true]
      rw [mapLookup_filter_contains, if_pos hp]
    · simp [hdel]
  constructor
  · intro p c hp hc
    have h1 : mapLookup tgt1 p = some c := by rw [hlook p hp, hc]
    constructor
    · rw [hv p, if_neg (by simp [h1]), h1]
    · rw [hh p]
      simp [h1]
  · intro p hp
    rw [hh p] at hp
    rcases hp with hp | ⟨hps, hpn⟩
    · simp at hp
    · exact ⟨hps, by rw [← hlook p hps, hpn]⟩

/-- C3 witness: source `[f]`, target already holding `f` with a stale
hash and the reconciliation leaving it untouched, hashing nothing. -/
theorem c3_update_never_recomputes_witness :
    (∀ p c, p ∈ [chars "f"] → mapLookup tgtStale p = some c →
      mapLookup tgtStale p = some c ∧ p ∉ ([] : List Str)) ∧
    (∀ p, p ∈ ([] : List Str) → p ∈ [chars "f"] ∧ mapLookup tgtStale p = none) :=
  c3_update_never_recomputes mdZero false [chars "f"] tgtStale tgtStale []
    (by decide)

/-! ## C4: the exact effect of update -/

/-- C4: the reconciled map is exactly: source paths keep their target
entry when present and otherwise get a freshly hashed one; non-source
paths are removed when the delete flag is set and kept verbatim when it
is unset; and `updateCommand` serializes exactly the values of that map
to the target manifest through `writeFile`. -/
theorem c4_update_exact_effect (md5 : Str → Option (List Nat)) (del : Bool)
    (src : List Str) (tgt : List (Str × Checksum))
    (m : List (Str × Checksum)) (hashed : List Str)
    (heq : updateMaps md5 del src tgt = some (m, hashed)) :
    (∀ k, mapLookup m k =
      if k ∈ src then
        match mapLookup tgt k with
        | some c => some c
        | none => (md5 k).map (fun bytes => ⟨hexEncode bytes, k⟩)
      else if del then none
      else mapLookup tgt k) ∧
    (∀ cwd target data,
      updateCommandModel md5 cwd del src target data =
        (updateMaps md5 del src (readFileToMapM target data)).map
          (fun pr => writeFileBytes cwd (pr.1.map Prod.snd) target)) := by
  constructor
  · unfold updateMaps at heq
    set tgt1 := if del then tgt.filter (fun kv => src.contains kv.1) else tgt with htgt1
    obtain ⟨hv, _⟩ := updateFold_char md5 src tgt1 [] m hashed heq
    intro k
    rw [hv k]
    by_cases hk : k ∈ src
    · have hlook : mapLookup tgt1 k = mapLookup tgt k := by
        rw [htgt1]
        by_cases hdel : del
        · simp only [hdel, if_true]
          rw [mapLookup_filter_contains, if_pos hk]
        · simp [hdel]
      rw [if_pos hk]
      cases hc : mapLookup tgt k with
      | none => rw [if_pos ⟨hk, by rw [hlook, hc]⟩]
      | some c => rw [if_neg (by simp [hlook, hc]), hlook, hc]
    · rw [if_neg (by simp [hk]), if_neg hk, htgt1]
      by_cases hdel : del
      · simp only [hdel, if_true]
        rw [mapLookup_filter_contains, if_neg hk]
      · simp [hdel]
  · intro cwd target data
    unfold updateCommandModel
    cases updateMaps md5 del src (readFileToMapM target data) with
    | none => rfl
    | some pr => rfl

/-! ## The verify fold characterization -/

theorem verifyFold_true (md5 : Str → Option (List Nat)) (path : Str) :
    ∀ (sums : List Checksum) (out : List ReportLine),
      sums.foldl (verifyStep md5 path) (true, out) =
        (true, out ++ sums.filterMap (nonOkLine md5)) := by
  intro sums
  induction sums with
  | nil => intro out; simp
  | cons c rest ih =>
      intro out
      rw [List.foldl_cons]
      cases hmd : md5 c.Path with
      | none =>
          have hstep : verifyStep md5 path (true, out) c =
              (true, out ++ [ReportLine.errorEntry c.Path]) := by
            simp [verifyStep, checksumVerify, generateMd5, hmd]
          rw [hstep, ih]
          simp [nonOkLine, classifyEntry, hmd]
      | some bytes =>
          by_cases hh : c.Hash = hexEncode bytes
          · have hstep : verifyStep md5 path (true, out) c = (true, out) := by
              simp [verifyStep, checksumVerify, generateMd5, hmd, hh]
            rw [hstep, ih]
            simp [nonOkLine, classifyEntry, hmd, hh]
          · have hstep : verifyStep md5 path (true, out) c =
                (true, out ++ [ReportLine.invalid c.Path]) := by
              simp [verifyStep, checksumVerify, generateMd5, hmd, hh]
            rw [hstep, ih]
            simp [nonOkLine, classifyEntry, hmd, hh]

theorem verifyFold_false (md5 : Str → Option (List Nat)) (path : Str) :
    ∀ (sums : List Checksum) (out : List ReportLine),
      sums.foldl (verifyStep md5 path) (false, out) =
        if ∀ c ∈ sums, classifyEntry md5 c = VStatus.ok then (false, out)
        else (true, out ++ ReportLine.er path :: sums.filterMap (nonOkLine md5)) := by
  intro sums
  induction sums with
  | nil => intro out; simp
  | cons c rest ih =>
      intro out
      rw [List.foldl_cons]
      cases hmd : md5 c.Path with
      | none =>
          have hstep : verifyStep md5 path (false, out) c =
              (true, (out ++ [ReportLine.er path]) ++ [ReportLine.errorEntry c.Path]) := by
            simp [verifyStep, checksumVerify, generateMd5, hmd]
          rw [hstep, verifyFold_true]
          rw [if_neg (by
            intro hall
            have := hall c (List.mem_cons_self c rest)
            simp [classifyEntry, hmd] at this)]
          simp [nonOkLine, classifyEntry, hmd]
      | some bytes =>
          by_cases hh : c.Hash = hexEncode bytes
          · have hok : classifyEntry md5 c = VStatus.ok := by
              simp [classifyEntry, hmd, hh]
            have hstep : verifyStep md5 path (false, out) c = (false, out) := by
              simp [verifyStep, checksumVerify, generateMd5, hmd, hh]
            rw [hstep, ih]
            by_cases hall : ∀ x ∈ rest, classifyEntry md5 x = VStatus.ok
            · rw [if_pos hall, if_pos (by
                intro x hx
                rcases List.mem_cons.mp hx with rfl | hx
                · exact hok
                · exact hall x hx)]
            · rw [if_neg hall, if_neg (by
                intro hall'
                exact hall fun x hx => hall' x (List.mem_cons_of_mem c hx))]
              simp [nonOkLine, hok]
          · have hstep : verifyStep md5 path (false, out) c =
                (true, (out ++ [ReportLine.er path]) ++ [ReportLine.invalid c.Path]) := by
              simp [verifyStep, checksumVerify, generateMd5, hmd, hh]
            rw [hstep, verifyFold_true]
            rw [if_neg (by
              intro hall
              have := hall c (List.mem_cons_self c rest)
              simp [classifyEntry, hmd, hh] at this)]
            simp [nonOkLine, classifyEntry, hmd, hh]

/-! ## C5: verify-time classification and the per-manifest report -/

/-- C5: over one manifest, an entry classifies Unreadable iff the hasher
cannot open/read its file (`Checksum.Verify` returns an error then — the
report line identifies it by path and carries no hash), Mismatched iff
the read succeeds but the fresh hash differs from the recorded one, OK
otherwise; the report is the single `OK` line iff every entry is OK, and
otherwise the `ER` header followed by exactly one line per non-OK entry,
identified by its path. -/
theorem c5_verify_classification (md5 : Str → Option (List Nat)) (path data : Str) :
    (verifyFileReport md5 path data =
      if ∀ c ∈ readFileSums path data, classifyEntry md5 c = VStatus.ok
      then [ReportLine.okManifest path]
      else ReportLine.er path ::
        (readFileSums path data).filterMap (nonOkLine md5)) ∧
    (∀ c : Checksum, classifyEntry md5 c = VStatus.unreadable ↔ md5 c.Path = none) ∧
    (∀ c : Checksum, classifyEntry md5 c = VStatus.mismatched ↔
      ∃ bytes, md5 c.Path = some bytes ∧ c.Hash ≠ hexEncode bytes) ∧
    (∀ c : Checksum, (checksumVerify md5 c).2 = true ↔ md5 c.Path = none) ∧
    (∀ c : Checksum, checksumVerify md5 c = (false, false) ↔
      classifyEntry md5 c = VStatus.mismatched) := by
  refine ⟨?_, ?_, ?_, ?_, ?_⟩
  · simp only [verifyFileReport]
    rw [verifyFold_false]
    by_cases hall : ∀ c ∈ readFileSums path data, classifyEntry md5 c = VStatus.ok
    · rw [if_pos hall, if_pos hall]
      simp
    · rw [if_neg hall, if_neg hall]
      simp
  · intro c
    cases hmd : md5 c.Path with
    | none => simp [classifyEntry, hmd]
    | some bytes =>
        by_cases hh : c.Hash = hexEncode bytes <;> simp [classifyEntry, hmd, hh]
  · intro c
    cases hmd : md5 c.Path with
    | none => simp [classifyEntry, hmd]
    | some bytes =>
        by_cases hh : c.Hash = hexEncode bytes <;> simp [classifyEntry, hmd, hh]
  · intro c
    cases hmd : md5 c.Path with
    | none => simp [checksumVerify, generateMd5, hmd]
    | some bytes => simp [checksumVerify, generateMd5, hmd]
  · intro c
    cases hmd : md5 c.Path with
    | none => simp [checksumVerify, generateMd5, classifyEntry, hmd]
    | some bytes =>
        by_cases hh : c.Hash = hexEncode bytes <;>
          simp [checksumVerify, generateMd5, classifyEntry, hmd, hh]

/-! ## C2 (amended): verify never aborts, and never changes the exit code -/

/-- C2 (amended): across a directory of manifests the verify command
classifies every entry of every manifest — the report is exactly the
concatenation of the per-manifest reports, so a non-OK entry never aborts
the remaining work — but the exit status is 0 regardless of
classification; a nonzero exit (1) arises only from the fatal `os.Stat`
failure on the argument path. -/
theorem c2_exit_status_amended (basic : Bool) (md5 : Str → Option (List Nat)) :
    (∀ manifests : List (Str × Str),
      (verifyCommandDir basic md5 manifests).2 = 0 ∧
      (verifyCommandDir basic md5 manifests).1 =
        (manifests.map (fun m => verifyFileReport md5 m.1 m.2)).flatten) ∧
    (∀ path data, (verifyCommandFile basic md5 path (some data)).2 = 0) ∧
    (∀ path, (verifyCommandFile basic md5 path none).2 = 1) := by
  refine ⟨?_, fun path data => rfl, fun path => rfl⟩
  intro manifests
  refine ⟨rfl, ?_⟩
  unfold verifyCommandDir
  have : ∀ (ms : List (Str × Str)) (acc : List ReportLine),
      ms.foldl (fun acc m => acc ++ verifyFileReport md5 m.1 m.2) acc =
        acc ++ (ms.map (fun m => verifyFileReport md5 m.1 m.2)).flatten := by
    intro ms
    induction ms with
    | nil => intro acc; simp
    | cons m rest ih =>
        intro acc
        rw [List.foldl_cons, ih]
        simp
  simpa using this manifests []

/-- C4 witness: source `[f]` against a target holding `f` (stale) and `g`;
with the delete flag, `g` is removed, `f` kept, nothing hashed. -/
theorem c4_update_exact_effect_witness :
    (∀ k, mapLookup tgtStale k =
      if k ∈ [chars "f"] then
        match mapLookup tgtTwo k with
        | some c => some c
        | none => (mdZero k).map (fun bytes => ⟨hexEncode bytes, k⟩)
      else if true then none
      else mapLookup tgtTwo k) ∧
    (∀ cwd target data,
      updateCommandModel mdZero cwd true [chars "f"] target data =
        (updateMaps mdZero true [chars "f"] (readFileToMapM target data)).map
          (fun pr => writeFileBytes cwd (pr.1.map Prod.snd) target)) :=
  c4_update_exact_effect mdZero true [chars "f"] tgtTwo tgtStale [] (by decide)

/-! ## C6 (amended): the valid-line pattern and the split-truncated path -/

/-- C6 (amended): a line is accepted as an entry iff it is 32 hex
characters, a space, `*`, then any remainder; parsing collects exactly one
entry per non-empty valid line and silently skips every other line (it is
a total function of the data, never failing); and for a valid line the
recorded hash is the 32-character prefix while the recorded path is the
remainder up to (but not including) its next occurrence of `" *"` — the
whole remainder when there is none — resolved against the manifest
directory when not absolute. -/
theorem c6_valid_line_amended :
    (∀ path data, readFileSums path data =
      (manifestLines data).filterMap (parsedLine path)) ∧
    (∀ line : Str, isValidLine line = true ↔
      ∃ h rest, line = h ++ ' ' :: '*' :: rest ∧ h.length = 32 ∧
        ∀ c ∈ h, isHexChar c = true) ∧
    (∀ (dir h rest : Str), h.length = 32 → (∀ c ∈ h, isHexChar c = true) →
      readEntry dir (h ++ ' ' :: '*' :: rest) =
        ⟨h, if isAbsL (upToStar rest) then upToStar rest
            else joinPath dir (upToStar rest)⟩) :=
  ⟨readFileSums_eq, isValidLine_decomp, readEntry_rendered⟩

/-! ## C9: resolution against the manifest directory and last-wins keying -/

/-- C9: `readFileToMap` is the entry list of `readFile` inserted in order
into a map keyed by the resolved path; every key equals its entry's
resolved path; a lookup returns the last entry with that resolved path
(duplicates: last occurrence wins); and each parsed entry's path is the
raw recorded field itself when absolute, otherwise the raw field joined
onto the directory of the manifest file — the model takes no working
directory at all, so the resolution cannot depend on one. -/
theorem c9_map_resolution_last_wins :
    (∀ path data, readFileToMapM path data =
      (readFileSums path data).foldl (fun m c => mapInsert m c.Path c) []) ∧
    (∀ path data kv, kv ∈ readFileToMapM path data → kv.1 = kv.2.Path) ∧
    (∀ path data k, mapLookup (readFileToMapM path data) k =
      ((readFileSums path data).filter (fun c => c.Path = k)).getLast?) ∧
    (∀ dir line, ∃ raw, (readEntry dir line).Path =
      if isAbsL raw then raw else joinPath dir raw) := by
  refine ⟨readFileToMapM_eq, ?_, ?_, readEntry_path_resolution⟩
  · intro path data kv hkv
    rw [readFileToMapM_eq] at hkv
    exact foldInsert_keyed (readFileSums path data) [] (by simp) kv hkv
  · intro path data k
    rw [readFileToMapM_eq, mapLookup_foldInsert]
    cases hl : ((readFileSums path data).filter (fun c => c.Path = k)).getLast? with
    | none => rfl
    | some c => rfl

/-! ## C8 (amended): determinism under distinct lowercased paths -/

/-- C8 (amended): serialization is input-order independent for every
ChecksumSet in which no two entries have the same lowercased path — the
sort keys are then pairwise distinct, so `Checksums.Less` admits exactly
one sorted arrangement (when two distinct paths agree case-insensitively
the comparator orders them neither way, and the counterexample shows the
output bytes then follow the input order). -/
theorem c8_sort_determinism_amended (cwd p : Str) (l₁ l₂ : List Checksum)
    (hperm : l₁.Perm l₂)
    (hdist : l₁.Pairwise (fun a b => lowerL a.Path ≠ lowerL b.Path)) :
    writeFileBytes cwd l₁ p = writeFileBytes cwd l₂ p := by
  suffices hs : List.insertionSort leC l₁ = List.insertionSort leC l₂ by
    unfold writeFileBytes
    rw [hs]
  haveI : IsTotal Checksum leC := ⟨leC_total⟩
  haveI : IsTrans Checksum leC := ⟨fun a b c => leC_trans a b c⟩
  haveI : IsAntisymm Checksum ordC := ⟨ordC_antisymm⟩
  have hsym : ∀ {a b : Checksum},
      lowerL a.Path ≠ lowerL b.Path → lowerL b.Path ≠ lowerL a.Path :=
    fun h e => h e.symm
  have hp₁ : (List.insertionSort leC l₁).Perm l₁ := List.perm_insertionSort leC l₁
  have hp₂ : (List.insertionSort leC l₂).Perm l₂ := List.perm_insertionSort leC l₂
  have hs₁ : List.Sorted leC (List.insertionSort leC l₁) :=
    List.sorted_insertionSort leC l₁
  have hs₂ : List.Sorted leC (List.insertionSort leC l₂) :=
    List.sorted_insertionSort leC l₂
  have hdist₁ : (List.insertionSort leC l₁).Pairwise
      (fun a b => lowerL a.Path ≠ lowerL b.Path) :=
    (hp₁.pairwise_iff hsym).mpr hdist
  have hdist₂ : (List.insertionSort leC l₂).Pairwise
      (fun a b => lowerL a.Path ≠ lowerL b.Path) :=
    (hp₂.pairwise_iff hsym).mpr ((hperm.pairwise_iff hsym).mp hdist)
  have hord₁ : List.Pairwise ordC (List.insertionSort leC l₁) :=
    (hs₁.and hdist₁).imp (fun h => leC_to_ordC _ _ h.1 h.2)
  have hord₂ : List.Pairwise ordC (List.insertionSort leC l₂) :=
    (hs₂.and hdist₂).imp (fun h => leC_to_ordC _ _ h.1 h.2)
  exact List.eq_of_perm_of_sorted (hp₁.trans (hperm.trans hp₂.symm)) hord₁ hord₂

/-- C8 witness: entries at `/d/A` and `/d/b` (distinct lowercased paths)
serialize identically from both input orders. -/
theorem c8_sort_determinism_amended_witness :
    writeFileBytes (chars "/w") [entryUpperA, entryB] (chars "/d/m.md5") =
      writeFileBytes (chars "/w") [entryB, entryUpperA] (chars "/d/m.md5") :=
  c8_sort_determinism_amended (chars "/w") (chars "/d/m.md5")
    [entryUpperA, entryB] [entryB, entryUpperA] (by decide) (by decide)

end Dirsum
